import Mathlib

/-!
A verification development for the aninamer plan-application engine
(`src/aninamer/apply.py`), the plan JSON codec (`src/aninamer/plan_io.py`)
and the monitor reconciliation loop (`src/aninamer/cli.py`).

Modelling conventions:
* A filesystem path is the list of its name segments, from the root.
  `Path.resolve(strict=False)` is the identity in this model: every path
  appearing in a plan is taken to be already resolved.
* A filesystem is a partial map from paths to entries: a regular file with
  an abstract content, or a directory.
* `shutil.move` on a regular file erases the source entry and writes the
  content at the destination (overwriting a regular file there, as the
  underlying POSIX rename does).  Moving a missing source raises; moving
  onto an existing directory is modelled as an error (after validation the
  engine never does it).
* Failures of the underlying filesystem are modelled by an optional
  injected failure index `failAt`: the `failAt`-th `shutil.move` call of an
  `apply_rename_plan` invocation raises instead of moving.  `failAt = none`
  is a fault-free filesystem.
* `uuid.uuid4` is modelled by passing the generated temp-directory path
  `tempDir` as an argument.
-/

namespace Aninamer

abbrev Path := List String

inductive Entry where
  | file (content : Nat)
  | dir
  deriving DecidableEq

abbrev FS := Path → Option Entry

/-- Content of the regular file at `p`, if any. -/
def fileAt (fs : FS) (p : Path) : Option Nat :=
  match fs p with
  | some (Entry.file c) => some c
  | _ => none

/-- All initial segments of `p`: the root `[]`, every proper ancestor, and
`p` itself. -/
def ancestorsIncl (p : Path) : List Path :=
  (List.range (p.length + 1)).map (fun k => p.take k)

inductive MoveKind where
  | video
  | subtitle
  deriving DecidableEq

/-- `aninamer.plan.PlannedMove`. -/
structure PlannedMove where
  src : Path
  dst : Path
  kind : MoveKind
  src_id : Int
  deriving DecidableEq

/-- `aninamer.plan.RenamePlan`. -/
structure RenamePlan where
  tmdb_id : Int
  series_name_zh_cn : String
  year : Option Int
  series_dir : Path
  output_root : Path
  moves : List PlannedMove
  deriving DecidableEq

/-- `aninamer.apply.AppliedMove`. -/
structure AppliedMove where
  src : Path
  dst : Path
  kind : MoveKind
  src_id : Int
  deriving DecidableEq

/-- `aninamer.apply.ApplyResult`. -/
structure ApplyResult where
  dry_run : Bool
  applied : List AppliedMove
  rollback_moves : List PlannedMove
  temp_dir : Option Path
  deriving DecidableEq

instance {α β : Type} [DecidableEq α] [DecidableEq β] : DecidableEq (Except α β) := fun x y =>
  match x, y with
  | Except.error a, Except.error b =>
    if h : a = b then isTrue (by rw [h])
    else isFalse (by intro hh; cases hh; exact h rfl)
  | Except.error _, Except.ok _ => isFalse (by intro hh; cases hh)
  | Except.ok _, Except.error _ => isFalse (by intro hh; cases hh)
  | Except.ok a, Except.ok b =>
    if h : a = b then isTrue (by rw [h])
    else isFalse (by intro hh; cases hh; exact h rfl)

/-- `aninamer.apply.build_rollback_moves`: swap `src` and `dst` of every
move of the plan, keeping `kind`, `src_id` and the order. -/
def build_rollback_moves (plan : RenamePlan) : List PlannedMove :=
  plan.moves.map (fun move => ⟨move.dst, move.src, move.kind, move.src_id⟩)

/-- `aninamer.apply._validate_parent_creatable`: walk from `dst.parent` up
to the root; an existing non-directory entry on the chain is an error. -/
def validate_parent_creatable (fs : FS) (dst : Path) : Bool :=
  (ancestorsIncl dst.dropLast).all (fun q => (fileAt fs q).isNone)

/-- A resolved move of the execution batch: the `(move, src, dst)` triples
of `apply_rename_plan`. -/
structure RMove where
  move : PlannedMove
  src : Path
  dst : Path
  deriving DecidableEq

/-- The `src` paths of all plan moves (`sources_set` in
`apply_rename_plan`). -/
def sourcesList (plan : RenamePlan) : List Path :=
  plan.moves.map (fun m => m.src)

/-- The validation loop of `aninamer.apply.apply_rename_plan`: check every
move in order and collect the non-no-op moves to execute. -/
def moves_to_apply_loop (fs : FS) (sources : List Path) :
    List PlannedMove → Except String (List RMove)
  | [] => Except.ok []
  | move :: rest =>
    if fileAt fs move.src = none then
      Except.error "source does not exist or is not a file"
    else if validate_parent_creatable fs move.dst = false then
      Except.error "destination parent is not a directory"
    else if (fs move.dst).isSome = true ∧ move.dst ∉ sources then
      Except.error "destination already exists"
    else if move.src = move.dst then
      moves_to_apply_loop fs sources rest
    else
      (moves_to_apply_loop fs sources rest).map
        (fun tail => ⟨move, move.src, move.dst⟩ :: tail)

def moves_to_apply (fs : FS) (plan : RenamePlan) : Except String (List RMove) :=
  moves_to_apply_loop fs (sourcesList plan) plan.moves

/-- First index of `ms` whose `src` equals `p`; this is the `src_to_idx`
dictionary of `_single_stage_order` (first occurrence wins). -/
def firstSrcIdx : List RMove → Path → Option Nat
  | [], _ => none
  | t :: rest, p =>
    if t.src = p then some 0 else (firstSrcIdx rest p).map (fun k => k + 1)

/-- The unique dependency of move `i`: `dep_idx = src_to_idx.get(dst)`,
skipped when absent or equal to `i`.  Move `depOf ms i` must run before
move `i`. -/
def depOf (ms : List RMove) (i : Nat) : Option Nat :=
  (ms.get? i).bind fun t =>
    (firstSrcIdx ms t.dst).bind fun j =>
      if j = i then none else some j

/-- Move `i` is ready after the moves of `done`: in range, not yet emitted,
and its dependency (if any) already emitted.  This is exactly the content
of the `heapq` heap of `_single_stage_order`. -/
def isReady (ms : List RMove) (done : List Nat) (i : Nat) : Bool :=
  decide (i < ms.length) && decide (i ∉ done) &&
    (match depOf ms i with
     | none => true
     | some j => decide (j ∈ done))

def readyList (ms : List RMove) (done : List Nat) : List Nat :=
  (List.range ms.length).filter (fun i => isReady ms done i)

/-- One `heapq.heappop`: the heap holds exactly the ready not-yet-emitted
indices, so the pop returns the least of them.  `readyList` filters the
ascending `List.range`, so its head is that least element. -/
def kahnStep (ms : List RMove) (done : List Nat) : Option Nat :=
  (readyList ms done).head?

def kahnRun (ms : List RMove) : Nat → List Nat → List Nat
  | 0, done => done
  | fuel + 1, done =>
    match kahnStep ms done with
    | none => done
    | some i => kahnRun ms fuel (done ++ [i])

/-- `aninamer.apply._single_stage_order`: Kahn's algorithm with a min-heap;
an output shorter than the batch means a dependency cycle. -/
def single_stage_order (ms : List RMove) : Except String (List Nat) :=
  let order := kahnRun ms ms.length []
  if order.length = ms.length then Except.ok order
  else Except.error "cycle detected in rename plan; re-run with --two-stage"

/-- Executor state: the filesystem plus the count of `shutil.move` calls
made so far (for fault injection). -/
structure ExecSt where
  fs : FS
  calls : Nat

/-- `dst.parent.mkdir(parents=True, exist_ok=True)` applied to path `p`
(`p` is already the parent): create directories at `p` and at every
ancestor; an existing regular file anywhere on the chain raises. -/
def mkdirAll (fs : FS) (p : Path) : Except String FS :=
  if (ancestorsIncl p).all (fun q => (fileAt fs q).isNone) then
    Except.ok (fun q => if q ∈ ancestorsIncl p then some Entry.dir else fs q)
  else Except.error "mkdir: an ancestor is not a directory"

/-- `shutil.move` on a regular file. -/
def moveFile (fs : FS) (src dst : Path) : Except String FS :=
  match fs src with
  | some (Entry.file c) =>
    match fs dst with
    | some Entry.dir => Except.error "destination is a directory"
    | _ =>
      Except.ok (fun q =>
        if q = dst then some (Entry.file c)
        else if q = src then none
        else fs q)
  | _ => Except.error "source is not a regular file"

/-- One `shutil.move` call with fault injection: the move numbered `failAt`
raises; a raising call (injected or genuine) leaves the filesystem
unchanged and returns `false`. -/
def tryMove (failAt : Option Nat) (st : ExecSt) (src dst : Path) :
    ExecSt × Bool :=
  let n := st.calls + 1
  if failAt = some n then (⟨st.fs, n⟩, false)
  else
    match moveFile st.fs src dst with
    | Except.ok fs2 => (⟨fs2, n⟩, true)
    | Except.error _ => (⟨st.fs, n⟩, false)

/-- The rollback loop of `_apply_single_stage`: over the applied moves in
reverse, move `dst` back to `src` when `dst` still exists; failures are
logged and ignored. -/
def rollbackSingle (failAt : Option Nat) (st : ExecSt) :
    List RMove → ExecSt
  | [] => st
  | t :: rest =>
    let st2 := if (st.fs t.dst).isSome then (tryMove failAt st t.dst t.src).1 else st
    rollbackSingle failAt st2 rest

/-- The move loop of `_apply_single_stage`: execute the batch in `order`,
creating destination parents first; returns the applied prefix and whether
every move succeeded. -/
def runSingle (failAt : Option Nat) (ms : List RMove) (st : ExecSt)
    (applied : List RMove) : List Nat → ExecSt × List RMove × Bool
  | [] => (st, applied, true)
  | idx :: rest =>
    match ms.get? idx with
    | none => (st, applied, false)
    | some t =>
      match mkdirAll st.fs t.dst.dropLast with
      | Except.error _ => (st, applied, false)
      | Except.ok fs2 =>
        let r := tryMove failAt ⟨fs2, st.calls⟩ t.src t.dst
        if r.2 then runSingle failAt ms r.1 (applied ++ [t]) rest
        else (r.1, applied, false)

/-- `aninamer.apply._apply_single_stage`. -/
def apply_single_stage (failAt : Option Nat) (plan : RenamePlan)
    (ms : List RMove) (fs : FS) : FS × Except String ApplyResult :=
  match single_stage_order ms with
  | Except.error e => (fs, Except.error e)
  | Except.ok order =>
    let res := runSingle failAt ms ⟨fs, 0⟩ [] order
    if res.2.2 then
      (res.1.fs,
        Except.ok
          ⟨false,
            res.2.1.map (fun t => ⟨t.move.src, t.move.dst, t.move.kind, t.move.src_id⟩),
            build_rollback_moves plan, none⟩)
    else
      let st2 := rollbackSingle failAt res.1 res.2.1.reverse
      (st2.fs, Except.error "apply failed")

/-- Index of the last dot of a name, if any. -/
def lastDotIdxAux : List Char → Nat → Option Nat → Option Nat
  | [], _, acc => acc
  | c :: rest, i, acc =>
    lastDotIdxAux rest (i + 1) (if c = '.' then some i else acc)

def lastDotIdx (cs : List Char) : Option Nat :=
  lastDotIdxAux cs 0 none

/-- `PurePath.suffix` of one name: the extension from the last dot, when
that dot is neither the first nor the last character. -/
def pySuffix (name : String) : String :=
  let cs := name.data
  match lastDotIdx cs with
  | some i => if 0 < i ∧ i < cs.length - 1 then String.mk (cs.drop i) else ""
  | none => ""

/-- `src.suffix` for a path. -/
def path_suffix (p : Path) : String :=
  match p.getLast? with
  | some name => pySuffix name
  | none => ""

def kindStr : MoveKind → String
  | MoveKind.video => "video"
  | MoveKind.subtitle => "subtitle"

def unique_temp_path_loop (fs : FS) (tempDir : Path) (base : String) :
    Nat → Nat → Path
  | counter, 0 => tempDir ++ [base ++ "." ++ toString counter]
  | counter, fuel + 1 =>
    let cand := tempDir ++ [base ++ "." ++ toString counter]
    if fs cand = none then cand
    else unique_temp_path_loop fs tempDir base (counter + 1) fuel

/-- `aninamer.apply._unique_temp_path`.  The source loop is unbounded; the
model bounds it by `fuel` extra candidates, enough whenever fewer than
`fuel` entries occupy the temp directory (the staging loop re-checks the
candidate and turns an exhausted fuel into the error path). -/
def unique_temp_path (fs : FS) (tempDir : Path) (base : String) (fuel : Nat) :
    Path :=
  let cand := tempDir ++ [base]
  if fs cand = none then cand
  else unique_temp_path_loop fs tempDir base 1 fuel

/-- A staged record of `_apply_two_stage`:
`(move, original_src, dst, temp_path)`. -/
structure SMove where
  move : PlannedMove
  src : Path
  dst : Path
  tmp : Path
  deriving DecidableEq

/-- Phase 1 of `_apply_two_stage`: move every source into the temp
directory, in input order. -/
def stageLoop (failAt : Option Nat) (st : ExecSt) (tempDir : Path)
    (fuel : Nat) (staged : List SMove) : List RMove → ExecSt × List SMove × Bool
  | [] => (st, staged, true)
  | t :: rest =>
    let base := kindStr t.move.kind ++ "_" ++ toString t.move.src_id ++ path_suffix t.src
    let tmp := unique_temp_path st.fs tempDir base fuel
    if (st.fs tmp).isSome then (st, staged, false)
    else
      let r := tryMove failAt st t.src tmp
      if r.2 then stageLoop failAt r.1 tempDir fuel (staged ++ [⟨t.move, t.src, t.dst, tmp⟩]) rest
      else (r.1, staged, false)

/-- Phase 2 of `_apply_two_stage`: move every staged file to its
destination, creating parents first. -/
def commitLoop (failAt : Option Nat) (st : ExecSt) :
    List SMove → ExecSt × Bool
  | [] => (st, true)
  | s :: rest =>
    match mkdirAll st.fs s.dst.dropLast with
    | Except.error _ => (st, false)
    | Except.ok fs2 =>
      let r := tryMove failAt ⟨fs2, st.calls⟩ s.tmp s.dst
      if r.2 then commitLoop failAt r.1 rest else (r.1, false)

/-- The rollback loop of `_apply_two_stage`, over the staged records in
reverse: a still-staged temp file goes back to the source; otherwise an
existing destination goes back to the source.  Failures are logged and
ignored. -/
def rollbackStaged (failAt : Option Nat) (st : ExecSt) :
    List SMove → ExecSt
  | [] => st
  | s :: rest =>
    let st2 :=
      if (st.fs s.tmp).isSome then (tryMove failAt st s.tmp s.src).1
      else if (st.fs s.dst).isSome then (tryMove failAt st s.dst s.src).1
      else st
    rollbackStaged failAt st2 rest

/-- `aninamer.apply._apply_two_stage`.  On full success the temp directory
is empty again (phase 2 moved every entry the executor put there out), so
the final `rmdir` removes it. -/
def apply_two_stage (failAt : Option Nat) (plan : RenamePlan)
    (ms : List RMove) (output_root : Path) (tempDir : Path) (fs : FS) :
    FS × Except String ApplyResult :=
  match mkdirAll fs output_root with
  | Except.error _ => (fs, Except.error "failed to create output_root")
  | Except.ok fs1 =>
    if (fs1 tempDir).isSome then (fs1, Except.error "failed to create temp dir")
    else
      match mkdirAll fs1 tempDir with
      | Except.error _ => (fs1, Except.error "failed to create temp dir")
      | Except.ok fs2 =>
        let sres := stageLoop failAt ⟨fs2, 0⟩ tempDir (ms.length + 1) [] ms
        if sres.2.2 then
          let cres := commitLoop failAt sres.1 sres.2.1
          if cres.2 then
            (fun q => if q = tempDir then none else cres.1.fs q,
              Except.ok
                ⟨false,
                  sres.2.1.map (fun s => ⟨s.move.src, s.move.dst, s.move.kind, s.move.src_id⟩),
                  build_rollback_moves plan, some tempDir⟩)
          else
            let st2 := rollbackStaged failAt cres.1 sres.2.1.reverse
            (st2.fs, Except.error "apply failed")
        else
          let st2 := rollbackStaged failAt sres.1 sres.2.1.reverse
          (st2.fs, Except.error "apply failed")

/-- `aninamer.apply.apply_rename_plan`. -/
def apply_rename_plan (fs : FS) (plan : RenamePlan) (dry_run two_stage : Bool)
    (tempDir : Path) (failAt : Option Nat) : FS × Except String ApplyResult :=
  match moves_to_apply fs plan with
  | Except.error e => (fs, Except.error e)
  | Except.ok ms =>
    if dry_run then
      (fs, Except.ok ⟨true, [], build_rollback_moves plan, none⟩)
    else if ms.isEmpty then
      (fs, Except.ok ⟨false, [], build_rollback_moves plan, none⟩)
    else if two_stage then
      apply_two_stage failAt plan ms plan.output_root tempDir fs
    else
      apply_single_stage failAt plan ms fs

/-! Basic facts about validation. -/

/-- A successful validation loop means every move of the list passed the
three per-move checks. -/
theorem moves_to_apply_loop_checks (fs : FS) (sources : List Path) :
    ∀ l ms, moves_to_apply_loop fs sources l = Except.ok ms →
      ∀ m ∈ l, fileAt fs m.src ≠ none ∧
        validate_parent_creatable fs m.dst = true ∧
        ¬((fs m.dst).isSome = true ∧ m.dst ∉ sources) := by
  intro l
  induction l with
  | nil => intro ms _ m hm; cases hm
  | cons move rest ih =>
    intro ms h m hm
    simp only [moves_to_apply_loop] at h
    by_cases h1 : fileAt fs move.src = none
    · rw [if_pos h1] at h; exact Except.noConfusion h
    rw [if_neg h1] at h
    by_cases h2 : validate_parent_creatable fs move.dst = false
    · rw [if_pos h2] at h; exact Except.noConfusion h
    rw [if_neg h2] at h
    by_cases h3 : (fs move.dst).isSome = true ∧ move.dst ∉ sources
    · rw [if_pos h3] at h; exact Except.noConfusion h
    rw [if_neg h3] at h
    have hmove : fileAt fs move.src ≠ none ∧
        validate_parent_creatable fs move.dst = true ∧
        ¬((fs move.dst).isSome = true ∧ move.dst ∉ sources) := by
      refine ⟨h1, ?_, h3⟩
      cases hv : validate_parent_creatable fs move.dst
      · exact absurd hv h2
      · rfl
    rcases List.mem_cons.mp hm with hm1 | hm2
    · subst hm1; exact hmove
    · by_cases h4 : move.src = move.dst
      · rw [if_pos h4] at h
        exact ih ms h m hm2
      · rw [if_neg h4] at h
        cases hr : moves_to_apply_loop fs sources rest with
        | error e => rw [hr] at h; simp [Except.map] at h
        | ok tail => exact ih tail hr m hm2

/-! ### Claim C8 -/

/-- C8: whenever some move of the plan has a missing or non-regular
source, a destination whose parent chain holds a non-directory entry, or
an already-existing destination that is not itself one of the plan's
source paths, `apply_rename_plan` returns an error (in every mode) and the
filesystem component of the result is exactly the input filesystem: the
error is raised before any mutation. -/
theorem c8_validation_precedes_mutation (fs : FS) (plan : RenamePlan)
    (dr ts : Bool) (tempDir : Path) (failAt : Option Nat) (m : PlannedMove)
    (hm : m ∈ plan.moves)
    (hbad : fileAt fs m.src = none ∨ validate_parent_creatable fs m.dst = false ∨
      ((fs m.dst).isSome = true ∧ m.dst ∉ sourcesList plan)) :
    ∃ e, apply_rename_plan fs plan dr ts tempDir failAt = (fs, Except.error e) := by
  cases hval : moves_to_apply fs plan with
  | error e =>
    refine ⟨e, ?_⟩
    simp [apply_rename_plan, hval]
  | ok ms =>
    exfalso
    have hchecks := moves_to_apply_loop_checks fs (sourcesList plan) plan.moves ms hval m hm
    rcases hbad with hb | hb | hb
    · exact hchecks.1 hb
    · rw [hchecks.2.1] at hb; cases hb
    · exact hchecks.2.2 hb

/-- Witness for C8 at a concrete input: a plan whose single move has a
missing source. -/
theorem c8_witness :
    ∃ e,
      apply_rename_plan (fun _ => none)
        ⟨1, "S", none, ["in"], ["out"], [⟨["in", "a"], ["out", "b"], MoveKind.video, 1⟩]⟩
        false false ["out", "t"] none =
      ((fun _ => none : FS), Except.error e) :=
  c8_validation_precedes_mutation (fun _ => none)
    ⟨1, "S", none, ["in"], ["out"], [⟨["in", "a"], ["out", "b"], MoveKind.video, 1⟩]⟩
    false false ["out", "t"] none
    ⟨["in", "a"], ["out", "b"], MoveKind.video, 1⟩
    (by decide) (Or.inl (by decide))

/-! ### Claim C6 -/

/-- C6: on a plan that passes validation, a dry-run apply returns the
input filesystem untouched together with an empty `applied` list and a
rollback list that swaps `src` and `dst` of every move of the entire input
plan (no-ops included), and iterating dry-run applies any number of times
leaves the filesystem fixed. -/
theorem c6_dry_run_is_pure (fs : FS) (plan : RenamePlan) (ts : Bool)
    (tempDir : Path) (failAt : Option Nat) (ms : List RMove)
    (hval : moves_to_apply fs plan = Except.ok ms) :
    apply_rename_plan fs plan true ts tempDir failAt =
      (fs, Except.ok
        ⟨true, [],
          plan.moves.map (fun m => ⟨m.dst, m.src, m.kind, m.src_id⟩), none⟩) ∧
    ∀ n : Nat,
      (fun g => (apply_rename_plan g plan true ts tempDir failAt).1)^[n] fs = fs := by
  have h1 : apply_rename_plan fs plan true ts tempDir failAt =
      (fs, Except.ok
        ⟨true, [],
          plan.moves.map (fun m => ⟨m.dst, m.src, m.kind, m.src_id⟩), none⟩) := by
    simp [apply_rename_plan, hval, build_rollback_moves]
  refine ⟨h1, ?_⟩
  intro n
  induction n with
  | zero => rfl
  | succ k ih =>
    rw [Function.iterate_succ_apply', ih, h1]

/-- A one-move plan on a filesystem holding its source, used as a concrete
validated input. -/
def fsOne : FS := fun p =>
  if p = ([] : Path) then some Entry.dir
  else if p = ["in"] then some Entry.dir
  else if p = ["in", "a"] then some (Entry.file 7)
  else none

def planOne : RenamePlan :=
  ⟨1, "S", none, ["in"], ["out"], [⟨["in", "a"], ["out", "b"], MoveKind.video, 1⟩]⟩

/-- Witness for C6: the concrete one-move plan passes validation, dry-run
returns the untouched filesystem, the empty applied list and the swapped
rollback list, and three iterated dry-runs leave the filesystem fixed. -/
theorem c6_witness :
    apply_rename_plan fsOne planOne true false ["t"] none =
      (fsOne, Except.ok
        ⟨true, [], [⟨["out", "b"], ["in", "a"], MoveKind.video, 1⟩], none⟩) ∧
    (fun g => (apply_rename_plan g planOne true false ["t"] none).1)^[3] fsOne = fsOne := by
  have h := c6_dry_run_is_pure fsOne planOne false ["t"] none
    [⟨⟨["in", "a"], ["out", "b"], MoveKind.video, 1⟩, ["in", "a"], ["out", "b"]⟩]
    (by decide)
  exact ⟨h.1, h.2 3⟩

/-! ### Claim C1 -/

/-- The only error `_single_stage_order` raises is the cycle error. -/
theorem single_stage_order_error_msg (ms : List RMove) (e : String)
    (h : single_stage_order ms = Except.error e) :
    e = "cycle detected in rename plan; re-run with --two-stage" := by
  simp only [single_stage_order] at h
  split_ifs at h with h1
  all_goals
    first
    | exact Except.noConfusion h
    | (injection h with h2; exact h2.symm)

/-- C1 amended: when the single-stage scheduler cannot order a non-empty
validated batch, `apply_rename_plan` invoked without an explicit staged
request surfaces the cycle error to the caller (instructing a staged
re-run) and performs no move: there is no automatic fallback to the staged
executor. -/
theorem c1_cycle_error_surfaces (fs : FS) (plan : RenamePlan)
    (tempDir : Path) (failAt : Option Nat) (ms : List RMove)
    (hval : moves_to_apply fs plan = Except.ok ms)
    (hne : ms.isEmpty = false)
    (hcyc : ∀ order, single_stage_order ms ≠ Except.ok order) :
    apply_rename_plan fs plan false false tempDir failAt =
      (fs, Except.error "cycle detected in rename plan; re-run with --two-stage") := by
  cases hso : single_stage_order ms with
  | ok order => exact absurd hso (hcyc order)
  | error e =>
    have he := single_stage_order_error_msg ms e hso
    subst he
    simp [apply_rename_plan, hval, hne, apply_single_stage, hso]

/-- A two-file swap: the canonical cyclic batch. -/
def fsSwap : FS := fun p =>
  if p = ([] : Path) then some Entry.dir
  else if p = ["root"] then some Entry.dir
  else if p = ["root", "a.mkv"] then some (Entry.file 1)
  else if p = ["root", "b.mkv"] then some (Entry.file 2)
  else none

def planSwap : RenamePlan :=
  ⟨1, "Series", some 2024, ["root"], ["root"],
    [⟨["root", "a.mkv"], ["root", "b.mkv"], MoveKind.video, 1⟩,
     ⟨["root", "b.mkv"], ["root", "a.mkv"], MoveKind.video, 2⟩]⟩

def msSwap : List RMove :=
  [⟨⟨["root", "a.mkv"], ["root", "b.mkv"], MoveKind.video, 1⟩,
      ["root", "a.mkv"], ["root", "b.mkv"]⟩,
   ⟨⟨["root", "b.mkv"], ["root", "a.mkv"], MoveKind.video, 2⟩,
      ["root", "b.mkv"], ["root", "a.mkv"]⟩]

def tmpSwap : Path := ["root", ".aninamer_tmp_x"]

/-- Counterexample to C1 as stated: on the swap plan, `apply_rename_plan`
without an explicit staged request returns the cycle error — it does not
execute the batch through the staged executor, although the staged
executor succeeds on the very same plan. -/
theorem c1_counterexample :
    (apply_rename_plan fsSwap planSwap false false tmpSwap none).2 =
      Except.error "cycle detected in rename plan; re-run with --two-stage" ∧
    (apply_rename_plan fsSwap planSwap false true tmpSwap none).2 =
      Except.ok
        ⟨false,
          [⟨["root", "a.mkv"], ["root", "b.mkv"], MoveKind.video, 1⟩,
           ⟨["root", "b.mkv"], ["root", "a.mkv"], MoveKind.video, 2⟩],
          [⟨["root", "b.mkv"], ["root", "a.mkv"], MoveKind.video, 1⟩,
           ⟨["root", "a.mkv"], ["root", "b.mkv"], MoveKind.video, 2⟩],
          some tmpSwap⟩ := by
  constructor
  · decide
  · decide

/-- Witness for the amended C1 at the concrete swap plan. -/
theorem c1_witness :
    apply_rename_plan fsSwap planSwap false false tmpSwap none =
      (fsSwap, Except.error "cycle detected in rename plan; re-run with --two-stage") :=
  c1_cycle_error_surfaces fsSwap planSwap tmpSwap none msSwap (by decide) (by decide)
    (fun order h => by
      rw [show single_stage_order msSwap =
        Except.error "cycle detected in rename plan; re-run with --two-stage" from by decide] at h
      exact Except.noConfusion h)

/-! ### Claim C2 -/

/-- C2, evaluated on the code at the failing input: a two-file swap
applied two-stage with the second phase-2 commit raising.  Both rollback
moves succeed (calls 5 and 6, not injected, with their sources present),
yet afterwards path `a.mkv` holds the other file's content 2, path `b.mkv`
does not exist, and content 1 is lost entirely — against the original
state `a.mkv ↦ 1`, `b.mkv ↦ 2`.  The temp files are gone (both rollback
moves did run); only the temp directory itself remains. -/
theorem c2_code_eval :
    (apply_rename_plan fsSwap planSwap false true tmpSwap (some 4)).2 =
      Except.error "apply failed" ∧
    fileAt (apply_rename_plan fsSwap planSwap false true tmpSwap (some 4)).1
        ["root", "a.mkv"] = some 2 ∧
    (apply_rename_plan fsSwap planSwap false true tmpSwap (some 4)).1
        ["root", "b.mkv"] = none ∧
    (apply_rename_plan fsSwap planSwap false true tmpSwap (some 4)).1
        (tmpSwap ++ ["video_1.mkv"]) = none ∧
    (apply_rename_plan fsSwap planSwap false true tmpSwap (some 4)).1
        (tmpSwap ++ ["video_2.mkv"]) = none ∧
    fileAt fsSwap ["root", "a.mkv"] = some 1 ∧
    fileAt fsSwap ["root", "b.mkv"] = some 2 := by
  refine ⟨by decide, by decide, by decide, by decide, by decide, by decide, by decide⟩

/-! ### Monitor state machine (`src/aninamer/cli.py`)

The per-directory transitions of `_monitor_loop` are modelled as pure step
functions that also return the ordered trace of externally visible actions
(plan building, plan-file writes, state persists, applies).  State
persistence carries the persisted value; the JSON round trip of the state
file is not re-modelled here.  The environment facts that claim C3 speaks
about — whether the source tree changed since the plan was written, and
whether the source directory is empty after an apply — are passed as the
`sourceChanged` and `sourceNowEmpty` arguments; the loop body in the
source never consults them, which the step functions mirror by ignoring
them. -/

/-- `aninamer.cli.MonitorState` (the in-memory sets, as lists). -/
structure MonitorState where
  baseline : List String
  pending : List String
  planned : List String
  processed : List String
  failed : List String
  deriving DecidableEq

/-- `aninamer.cli._empty_monitor_state`. -/
def empty_monitor_state : MonitorState := ⟨[], [], [], [], []⟩

/-- A JSON value, for the persisted monitor-state file. -/
inductive JValue where
  | null
  | jbool (b : Bool)
  | jnum (n : Int)
  | jstr (s : String)
  | jarr (xs : List JValue)
  | jobj (kvs : List (String × JValue))

/-- Lookup in a parsed JSON object; `json.loads` keeps the last occurrence
of a duplicated key, as this fold does. -/
def jGet (kvs : List (String × JValue)) (k : String) : Option JValue :=
  kvs.foldl (fun acc kv => if kv.1 = k then some kv.2 else acc) none

/-- Python `==` between a JSON value and the integer literal `k`
(`True == 1` and `False == 0` hold in Python). -/
def pyEqInt (v : Option JValue) (k : Int) : Bool :=
  match v with
  | some (JValue.jnum n) => decide (n = k)
  | some (JValue.jbool b) => if b then decide (k = 1) else decide (k = 0)
  | _ => false

def asStrList : List JValue → Option (List String)
  | [] => some []
  | JValue.jstr s :: rest => (asStrList rest).map (fun t => s :: t)
  | _ :: _ => none

/-- `aninamer.cli._load_state_list`: the field must be a list whose items
are all strings, otherwise it raises (surfacing as the `invalid` outcome
of the loader).  The in-memory `set(value)` is modelled by the list
itself. -/
def load_state_list (kvs : List (String × JValue)) (field : String) :
    Option (List String) :=
  match jGet kvs field with
  | some (JValue.jarr xs) => asStrList xs
  | _ => none

/-- What reading the state file yielded: no file, text that is not JSON,
or a parsed JSON value. -/
inductive StateFileRead where
  | missing
  | unparseable
  | parsed (j : JValue)

/-- `aninamer.cli._load_monitor_state`: versions 1, 2 and 3 are accepted;
every failure inside the `try` block yields the empty state with origin
`invalid`. -/
def load_monitor_state (inp : StateFileRead) : MonitorState × String :=
  match inp with
  | StateFileRead.missing => (empty_monitor_state, "missing")
  | StateFileRead.unparseable => (empty_monitor_state, "invalid")
  | StateFileRead.parsed j =>
    match j with
    | JValue.jobj kvs =>
      if pyEqInt (jGet kvs "version") 1 then
        match load_state_list kvs "processed" with
        | some processed => (⟨[], [], [], processed, []⟩, "v1")
        | none => (empty_monitor_state, "invalid")
      else if pyEqInt (jGet kvs "version") 2 then
        match load_state_list kvs "baseline", load_state_list kvs "pending",
          load_state_list kvs "planned", load_state_list kvs "processed" with
        | some b, some pe, some pl, some pr => (⟨b, pe, pl, pr, []⟩, "v2")
        | _, _, _, _ => (empty_monitor_state, "invalid")
      else if pyEqInt (jGet kvs "version") 3 then
        match load_state_list kvs "baseline", load_state_list kvs "pending",
          load_state_list kvs "planned", load_state_list kvs "processed",
          load_state_list kvs "failed" with
        | some b, some pe, some pl, some pr, some f => (⟨b, pe, pl, pr, f⟩, "v3")
        | _, _, _, _, _ => (empty_monitor_state, "invalid")
      else (empty_monitor_state, "invalid")
    | _ => (empty_monitor_state, "invalid")

/-- The baseline bootstrap of `_monitor_loop` (first pass, no
`--include-existing`, state origin `missing`, `v1` or `invalid`): the
baseline becomes the currently present directories minus the processed
ones, pending and planned are reset, processed and failed are kept from
the loaded state. -/
def baseline_bootstrap (include_existing bootstrapped : Bool)
    (origin : String) (st : MonitorState) (current_dirs : List String) :
    Option MonitorState :=
  if include_existing = false ∧ bootstrapped = false ∧
      (origin = "missing" ∨ origin = "v1" ∨ origin = "invalid") then
    some ⟨current_dirs.filter (fun d => d ∉ st.processed), [], [],
      st.processed, st.failed⟩
  else none

/-- Externally visible actions of one monitor step, in execution order.
The last three constructors give claim C3 its vocabulary; the loop body in
the source never performs them. -/
inductive MonAction where
  | buildPlan (d : String)
  | writePlanFile (d : String)
  | persistState (st : MonitorState)
  | readPlanFile (d : String)
  | applyPlan (d : String)
  | recheckSourceTree (d : String)
  | pruneSourceDir (d : String)
  | archiveSourceDir (d : String)
  deriving DecidableEq

def addDir (l : List String) (d : String) : List String :=
  if d ∈ l then l else l ++ [d]

def discardDir (l : List String) (d : String) : List String :=
  l.filter (fun x => x ≠ d)

/-- The pending-directory body of `_monitor_loop` (cli.py 1024–1085), for
a settled pending directory `d`: build and write the plan, persist the
`pending → planned` transition, then — when `--apply` is set — apply the
persisted plan and persist `planned → processed`; any exception moves `d`
to `failed` and persists.  `planOk` (resp. `applyOk`) is whether plan
building (resp. apply) raised. -/
def promote_pending_step (applyFlag : Bool) (st : MonitorState) (d : String)
    (planOk applyOk sourceChanged sourceNowEmpty : Bool) :
    MonitorState × List MonAction :=
  if planOk then
    let st1 : MonitorState :=
      ⟨st.baseline, discardDir st.pending d, addDir st.planned d,
        st.processed, st.failed⟩
    if applyFlag then
      if applyOk then
        let st2 : MonitorState :=
          ⟨st1.baseline, st1.pending, discardDir st1.planned d,
            addDir st1.processed d, st1.failed⟩
        (st2,
          [MonAction.buildPlan d, MonAction.writePlanFile d,
            MonAction.persistState st1, MonAction.applyPlan d,
            MonAction.persistState st2])
      else
        let stf : MonitorState :=
          ⟨st1.baseline, discardDir st1.pending d, discardDir st1.planned d,
            st1.processed, addDir st1.failed d⟩
        (stf,
          [MonAction.buildPlan d, MonAction.writePlanFile d,
            MonAction.persistState st1, MonAction.applyPlan d,
            MonAction.persistState stf])
    else
      (st1,
        [MonAction.buildPlan d, MonAction.writePlanFile d,
          MonAction.persistState st1])
  else
    let stf : MonitorState :=
      ⟨st.baseline, discardDir st.pending d, discardDir st.planned d,
        st.processed, addDir st.failed d⟩
    (stf, [MonAction.buildPlan d, MonAction.persistState stf])

/-- The planned-directory body of `_monitor_loop` (cli.py 966–1002), for a
planned directory `d` not in `failed`: read the persisted plan file, apply
it, persist `planned → processed`; an exception moves `d` to `failed` and
persists.  No plan building happens on this path. -/
def process_planned_step (st : MonitorState) (d : String)
    (applyOk sourceChanged sourceNowEmpty : Bool) :
    MonitorState × List MonAction :=
  if applyOk then
    let st2 : MonitorState :=
      ⟨st.baseline, st.pending, discardDir st.planned d,
        addDir st.processed d, st.failed⟩
    (st2, [MonAction.readPlanFile d, MonAction.applyPlan d,
      MonAction.persistState st2])
  else
    let stf : MonitorState :=
      ⟨st.baseline, st.pending, discardDir st.planned d,
        st.processed, addDir st.failed d⟩
    (stf, [MonAction.readPlanFile d, MonAction.applyPlan d,
      MonAction.persistState stf])

/-- The monitor state on disk after executing a prefix of a step's trace:
the value of the last persist in the prefix, else the initial persisted
value. -/
def lastPersisted (init : MonitorState) (tr : List MonAction) : MonitorState :=
  tr.foldl (fun acc a =>
    match a with
    | MonAction.persistState s => s
    | _ => acc) init

theorem mem_addDir (l : List String) (d : String) : d ∈ addDir l d := by
  unfold addDir
  split
  · assumption
  · simp

theorem not_mem_discardDir (l : List String) (d : String) :
    d ∉ discardDir l d := by
  simp [discardDir]

/-! ### Claim C3 -/

/-- C3, evaluated on the code at a concrete failing input: with apply on
promotion enabled, a planned directory whose source tree has changed since
the plan was written (`sourceChanged = true`) is nonetheless applied and
finalized to `processed`; the trace contains no source-tree re-check, no
prune and no archive action, and the outcome does not depend on the
source-tree-changed or now-empty facts at all. -/
theorem c3_code_eval :
    promote_pending_step true ⟨["base"], ["dirA"], [], [], []⟩ "dirA"
        true true true false =
      (⟨["base"], [], [], ["dirA"], []⟩,
        [MonAction.buildPlan "dirA", MonAction.writePlanFile "dirA",
          MonAction.persistState ⟨["base"], [], ["dirA"], [], []⟩,
          MonAction.applyPlan "dirA",
          MonAction.persistState ⟨["base"], [], [], ["dirA"], []⟩]) ∧
    (∀ a ∈ (promote_pending_step true ⟨["base"], ["dirA"], [], [], []⟩ "dirA"
        true true true false).2,
      a ≠ MonAction.recheckSourceTree "dirA" ∧
      a ≠ MonAction.pruneSourceDir "dirA" ∧
      a ≠ MonAction.archiveSourceDir "dirA") ∧
    promote_pending_step true ⟨["base"], ["dirA"], [], [], []⟩ "dirA"
        true true true false =
      promote_pending_step true ⟨["base"], ["dirA"], [], [], []⟩ "dirA"
        true true false true := by
  refine ⟨by decide, ?_, by decide⟩
  intro a ha
  fin_cases ha <;> exact ⟨by decide, by decide, by decide⟩

/-! ### Claim C4 -/

/-- C4: in the promote step the `pending → planned` transition is
persisted after the plan file is written and before the apply runs (the
trace is exactly plan build, plan write, persist of the planned state,
apply, final persist); a run cut anywhere between that persist and the
final persist leaves the planned state on disk, with the directory in
`planned` and out of `pending`; and the planned-directory step that a
restart executes reads the persisted plan and applies it without any plan
building or plan writing. -/
theorem c4_resume_at_apply (st : MonitorState) (d : String)
    (applyOk sc se applyOk2 sc2 se2 : Bool) :
    (promote_pending_step true st d true applyOk sc se).2 =
      [MonAction.buildPlan d, MonAction.writePlanFile d,
        MonAction.persistState
          ⟨st.baseline, discardDir st.pending d, addDir st.planned d,
            st.processed, st.failed⟩,
        MonAction.applyPlan d,
        MonAction.persistState (promote_pending_step true st d true applyOk sc se).1] ∧
    d ∈ (addDir st.planned d) ∧ d ∉ (discardDir st.pending d) ∧
    (∀ n, 3 ≤ n → n ≤ 4 →
      lastPersisted st ((promote_pending_step true st d true applyOk sc se).2.take n) =
        ⟨st.baseline, discardDir st.pending d, addDir st.planned d,
          st.processed, st.failed⟩) ∧
    (process_planned_step
        ⟨st.baseline, discardDir st.pending d, addDir st.planned d,
          st.processed, st.failed⟩ d applyOk2 sc2 se2).2 =
      [MonAction.readPlanFile d, MonAction.applyPlan d,
        MonAction.persistState
          (process_planned_step
            ⟨st.baseline, discardDir st.pending d, addDir st.planned d,
              st.processed, st.failed⟩ d applyOk2 sc2 se2).1] ∧
    (∀ a ∈ (process_planned_step
        ⟨st.baseline, discardDir st.pending d, addDir st.planned d,
          st.processed, st.failed⟩ d applyOk2 sc2 se2).2,
      ∀ x, a ≠ MonAction.buildPlan x ∧ a ≠ MonAction.writePlanFile x) := by
  refine ⟨?_, mem_addDir _ _, not_mem_discardDir _ _, ?_, ?_, ?_⟩
  · cases applyOk <;> rfl
  · intro n h3 h4
    interval_cases n <;> cases applyOk <;> rfl
  · cases applyOk2 <;> rfl
  · intro a ha x
    have htr : (process_planned_step
        ⟨st.baseline, discardDir st.pending d, addDir st.planned d,
          st.processed, st.failed⟩ d applyOk2 sc2 se2).2 =
        [MonAction.readPlanFile d, MonAction.applyPlan d,
          MonAction.persistState
            (process_planned_step
              ⟨st.baseline, discardDir st.pending d, addDir st.planned d,
                st.processed, st.failed⟩ d applyOk2 sc2 se2).1] := by
      cases applyOk2 <;> rfl
    rw [htr] at ha
    rcases List.mem_cons.mp ha with h | ha2
    · subst h; exact ⟨fun hh => (nomatch hh), fun hh => (nomatch hh)⟩
    rcases List.mem_cons.mp ha2 with h | ha3
    · subst h; exact ⟨fun hh => (nomatch hh), fun hh => (nomatch hh)⟩
    rcases List.mem_cons.mp ha3 with h | ha4
    · subst h; exact ⟨fun hh => (nomatch hh), fun hh => (nomatch hh)⟩
    · cases ha4

/-! ### Claim C9 -/

/-- A persisted monitor-state input that the loader rejects: unparseable
text, a non-object document, a version other than 1, 2 or 3 (under
Python equality, which equates `True` with 1 and `False` with 0), or a
malformed list field among those the claimed version reads. -/
def MalformedStateInput (inp : StateFileRead) : Prop :=
  inp = StateFileRead.unparseable ∨
  (∃ j, inp = StateFileRead.parsed j ∧ ∀ kvs, j ≠ JValue.jobj kvs) ∨
  (∃ kvs, inp = StateFileRead.parsed (JValue.jobj kvs) ∧
    pyEqInt (jGet kvs "version") 1 = false ∧
    pyEqInt (jGet kvs "version") 2 = false ∧
    pyEqInt (jGet kvs "version") 3 = false) ∨
  (∃ kvs, inp = StateFileRead.parsed (JValue.jobj kvs) ∧
    pyEqInt (jGet kvs "version") 1 = true ∧
    load_state_list kvs "processed" = none) ∨
  (∃ kvs, inp = StateFileRead.parsed (JValue.jobj kvs) ∧
    pyEqInt (jGet kvs "version") 1 = false ∧
    pyEqInt (jGet kvs "version") 2 = true ∧
    (load_state_list kvs "baseline" = none ∨ load_state_list kvs "pending" = none ∨
     load_state_list kvs "planned" = none ∨ load_state_list kvs "processed" = none)) ∨
  (∃ kvs, inp = StateFileRead.parsed (JValue.jobj kvs) ∧
    pyEqInt (jGet kvs "version") 1 = false ∧
    pyEqInt (jGet kvs "version") 2 = false ∧
    pyEqInt (jGet kvs "version") 3 = true ∧
    (load_state_list kvs "baseline" = none ∨ load_state_list kvs "pending" = none ∨
     load_state_list kvs "planned" = none ∨ load_state_list kvs "processed" = none ∨
     load_state_list kvs "failed" = none))

/-- C9: a malformed state file loads as the empty state (all five sets
empty) with origin `invalid` instead of raising, and the first pass
without `--include-existing` then re-bootstraps the baseline from the
currently present directories with empty pending, planned and failed sets
— every previously persisted pending, planned or failed entry is silently
discarded. -/
theorem c9_invalid_state_discards (inp : StateFileRead)
    (current : List String) (hbad : MalformedStateInput inp) :
    load_monitor_state inp = (empty_monitor_state, "invalid") ∧
    baseline_bootstrap false false (load_monitor_state inp).2
        (load_monitor_state inp).1 current =
      some ⟨current, [], [], [], []⟩ := by
  have hload : load_monitor_state inp = (empty_monitor_state, "invalid") := by
    rcases hbad with h | ⟨j, h, hobj⟩ | ⟨kvs, h, h1, h2, h3⟩ |
        ⟨kvs, h, h1, hf⟩ | ⟨kvs, h, h1, h2, hf⟩ | ⟨kvs, h, h1, h2, h3, hf⟩
    · subst h; rfl
    · subst h
      cases j with
      | jobj kvs => exact absurd rfl (hobj kvs)
      | null => rfl
      | jbool b => rfl
      | jnum n => rfl
      | jstr s => rfl
      | jarr xs => rfl
    · subst h
      simp [load_monitor_state, h1, h2, h3]
    · subst h
      simp [load_monitor_state, h1, hf]
    · subst h
      rcases hf with hf | hf | hf | hf
      · simp [load_monitor_state, h1, h2, hf]
      · cases hb : load_state_list kvs "baseline" <;>
          simp [load_monitor_state, h1, h2, hb, hf]
      · cases hb : load_state_list kvs "baseline" <;>
          cases hpe : load_state_list kvs "pending" <;>
          simp [load_monitor_state, h1, h2, hb, hpe, hf]
      · cases hb : load_state_list kvs "baseline" <;>
          cases hpe : load_state_list kvs "pending" <;>
          cases hpl : load_state_list kvs "planned" <;>
          simp [load_monitor_state, h1, h2, hb, hpe, hpl, hf]
    · subst h
      rcases hf with hf | hf | hf | hf | hf
      · simp [load_monitor_state, h1, h2, h3, hf]
      · cases hb : load_state_list kvs "baseline" <;>
          simp [load_monitor_state, h1, h2, h3, hb, hf]
      · cases hb : load_state_list kvs "baseline" <;>
          cases hpe : load_state_list kvs "pending" <;>
          simp [load_monitor_state, h1, h2, h3, hb, hpe, hf]
      · cases hb : load_state_list kvs "baseline" <;>
          cases hpe : load_state_list kvs "pending" <;>
          cases hpl : load_state_list kvs "planned" <;>
          simp [load_monitor_state, h1, h2, h3, hb, hpe, hpl, hf]
      · cases hb : load_state_list kvs "baseline" <;>
          cases hpe : load_state_list kvs "pending" <;>
          cases hpl : load_state_list kvs "planned" <;>
          cases hpr : load_state_list kvs "processed" <;>
          simp [load_monitor_state, h1, h2, h3, hb, hpe, hpl, hpr, hf]
  refine ⟨hload, ?_⟩
  rw [hload]
  simp [baseline_bootstrap, empty_monitor_state, List.filter_eq_self]

/-- Witness for C9: a state file with version 5 loads as invalid and the
bootstrap keeps only the current directory in the baseline. -/
theorem c9_witness :
    load_monitor_state (StateFileRead.parsed (JValue.jobj [("version", JValue.jnum 5)])) =
      (empty_monitor_state, "invalid") ∧
    baseline_bootstrap false false
        (load_monitor_state (StateFileRead.parsed (JValue.jobj [("version", JValue.jnum 5)]))).2
        (load_monitor_state (StateFileRead.parsed (JValue.jobj [("version", JValue.jnum 5)]))).1
        ["d1"] =
      some ⟨["d1"], [], [], [], []⟩ :=
  c9_invalid_state_discards _ ["d1"]
    (Or.inr (Or.inr (Or.inl ⟨[("version", JValue.jnum 5)], rfl, rfl, rfl, rfl⟩)))

/-! ### Plan JSON codec (`src/aninamer/plan_io.py`)

`str(path)` and `Path(string)` are modelled by joining and splitting the
segment list on `'/'`.  For any value that a real `Path` object can take —
a non-empty segment list with no separator inside a segment — the pair is
mutually inverse, mirroring `Path(str(p)) == p` in Python. -/

def charJoin : List (List Char) → List Char
  | [] => []
  | [c] => c
  | c :: c2 :: rest => c ++ '/' :: charJoin (c2 :: rest)

def charSplit : List Char → List (List Char)
  | [] => [[]]
  | c :: cs =>
    if c = '/' then [] :: charSplit cs
    else
      match charSplit cs with
      | [] => [[c]]
      | h :: t => (c :: h) :: t

theorem charSplit_ne_nil (cs : List Char) : charSplit cs ≠ [] := by
  induction cs with
  | nil => simp [charSplit]
  | cons c cs ih =>
    simp only [charSplit]
    split
    · simp
    · cases h : charSplit cs with
      | nil => simp
      | cons hh tt => simp

theorem charSplit_seg_append (s : List Char) (hs : ('/' : Char) ∉ s) :
    ∀ cs h t, charSplit cs = h :: t → charSplit (s ++ cs) = (s ++ h) :: t := by
  induction s with
  | nil => intro cs h t hcs; simpa using hcs
  | cons c s ih =>
    intro cs h t hcs
    have hc : c ≠ '/' := fun hh => hs (by rw [hh]; exact List.mem_cons_self _ _)
    have hrec := ih (fun hh => hs (List.mem_cons_of_mem _ hh)) cs h t hcs
    have hrec' : charSplit (s.append cs) = (s ++ h) :: t := hrec
    simp only [List.cons_append, charSplit, if_neg hc, hrec']

theorem charSplit_charJoin (sl : List (List Char)) (hne : sl ≠ [])
    (hsl : ∀ s ∈ sl, ('/' : Char) ∉ s) : charSplit (charJoin sl) = sl := by
  induction sl with
  | nil => exact absurd rfl hne
  | cons s rest ih =>
    cases rest with
    | nil =>
      have : charSplit (s ++ ([] : List Char)) = (s ++ []) :: [] :=
        charSplit_seg_append s (hsl s (List.mem_cons_self _ _)) [] [] [] rfl
      simpa [charJoin] using this
    | cons s2 rest2 =>
      have hrest := ih (by simp) (fun x hx => hsl x (List.mem_cons_of_mem _ hx))
      have hstep : charSplit ('/' :: charJoin (s2 :: rest2)) =
          [] :: charSplit (charJoin (s2 :: rest2)) := by
        simp [charSplit]
      have := charSplit_seg_append s (hsl s (List.mem_cons_self _ _))
        ('/' :: charJoin (s2 :: rest2)) [] (charSplit (charJoin (s2 :: rest2))) hstep
      rw [show charJoin (s :: s2 :: rest2) = s ++ '/' :: charJoin (s2 :: rest2) from rfl,
        this, hrest]
      simp

/-- `str(path)` for a model path. -/
def pathToString (p : Path) : String :=
  String.mk (charJoin (p.map String.data))

/-- `Path(string)` for a model path. -/
def stringToPath (s : String) : Path :=
  (charSplit s.data).map String.mk

/-- A path that a real `Path` object can denote: non-empty, no separator
inside a segment. -/
def WFPath (p : Path) : Prop :=
  p ≠ [] ∧ ∀ s ∈ p, ('/' : Char) ∉ s.data

instance (p : Path) : Decidable (WFPath p) := by
  unfold WFPath; infer_instance

theorem stringToPath_pathToString (p : Path) (hp : WFPath p) :
    stringToPath (pathToString p) = p := by
  unfold stringToPath pathToString
  have hdata : (String.mk (charJoin (List.map String.data p))).data =
      charJoin (List.map String.data p) := rfl
  rw [hdata, charSplit_charJoin (p.map String.data)
    (by intro hh; exact hp.1 (List.map_eq_nil_iff.mp hh))
    (by intro s hs
        rcases List.mem_map.mp hs with ⟨x, hx, rfl⟩
        exact hp.2 x hx)]
  rw [List.map_map, show String.mk ∘ String.data = id from funext (fun s => rfl),
    List.map_id]

/-- One entry of the `moves` list of `rename_plan_to_dict`. -/
def move_to_dict (move : PlannedMove) : JValue :=
  JValue.jobj
    [("src_id", JValue.jnum move.src_id),
     ("kind", JValue.jstr (kindStr move.kind)),
     ("src", JValue.jstr (pathToString move.src)),
     ("dst", JValue.jstr (pathToString move.dst))]

/-- `aninamer.plan_io.rename_plan_to_dict`. -/
def rename_plan_to_dict (plan : RenamePlan) : JValue :=
  JValue.jobj
    [("version", JValue.jnum 1),
     ("tmdb_id", JValue.jnum plan.tmdb_id),
     ("series_name_zh_cn", JValue.jstr plan.series_name_zh_cn),
     ("year", match plan.year with
              | some y => JValue.jnum y
              | none => JValue.null),
     ("series_dir", JValue.jstr (pathToString plan.series_dir)),
     ("output_root", JValue.jstr (pathToString plan.output_root)),
     ("moves", JValue.jarr (plan.moves.map move_to_dict))]

/-- `aninamer.plan_io._validate_keys`: the key set must equal the expected
set exactly (closed schema). -/
def keySetEq (kvs : List (String × JValue)) (expected : List String) : Bool :=
  expected.all (fun k => (kvs.map (fun kv => kv.1)).contains k) &&
    (kvs.map (fun kv => kv.1)).all (fun k => expected.contains k)

/-- `aninamer.plan_io._require_int`: `True`/`False` are ints in Python and
are rejected explicitly there; `jbool` falls into the catch-all here. -/
def require_int (v : Option JValue) : Option Int :=
  match v with
  | some (JValue.jnum n) => some n
  | _ => none

/-- `aninamer.plan_io._require_str`. -/
def require_str (v : Option JValue) : Option String :=
  match v with
  | some (JValue.jstr s) => some s
  | _ => none

def parseKind (v : Option JValue) : Option MoveKind :=
  match v with
  | some (JValue.jstr s) =>
    if s = "video" then some MoveKind.video
    else if s = "subtitle" then some MoveKind.subtitle
    else none
  | _ => none

/-- `year` handling of `rename_plan_from_dict`: `null` (Python `None`)
gives no year, an int gives a year, anything else raises. -/
def parseYear (v : Option JValue) : Except String (Option Int) :=
  match v with
  | none => Except.ok none
  | some JValue.null => Except.ok none
  | some (JValue.jnum n) => Except.ok (some n)
  | _ => Except.error "year must be int or null"

/-- One entry of the `moves` loop of `rename_plan_from_dict`. -/
def parseMove (j : JValue) : Except String PlannedMove :=
  match j with
  | JValue.jobj kvs =>
    if keySetEq kvs ["src_id", "kind", "src", "dst"] = false then
      Except.error "move keys invalid"
    else
      match require_int (jGet kvs "src_id"), parseKind (jGet kvs "kind"),
          require_str (jGet kvs "src"), require_str (jGet kvs "dst") with
      | some i, some k, some s, some d =>
        Except.ok ⟨stringToPath s, stringToPath d, k, i⟩
      | _, _, _, _ => Except.error "move field invalid"
  | _ => Except.error "moves item must be object"

def parseMoves : List JValue → Except String (List PlannedMove)
  | [] => Except.ok []
  | j :: rest =>
    match parseMove j with
    | Except.error e => Except.error e
    | Except.ok m => (parseMoves rest).map (fun t => m :: t)

/-- `aninamer.plan_io.rename_plan_from_dict`. -/
def rename_plan_from_dict (j : JValue) : Except String RenamePlan :=
  match j with
  | JValue.jobj kvs =>
    if keySetEq kvs ["version", "tmdb_id", "series_name_zh_cn", "year",
        "series_dir", "output_root", "moves"] = false then
      Except.error "plan keys invalid"
    else if pyEqInt (jGet kvs "version") 1 = false then
      Except.error "version must be 1"
    else
      match require_int (jGet kvs "tmdb_id") with
      | none => Except.error "tmdb_id must be int"
      | some tmdb =>
        match require_str (jGet kvs "series_name_zh_cn") with
        | none => Except.error "series_name_zh_cn must be str"
        | some name =>
          match parseYear (jGet kvs "year") with
          | Except.error e => Except.error e
          | Except.ok year =>
            match require_str (jGet kvs "series_dir") with
            | none => Except.error "series_dir must be str"
            | some sdir =>
              match require_str (jGet kvs "output_root") with
              | none => Except.error "output_root must be str"
              | some oroot =>
                match jGet kvs "moves" with
                | some (JValue.jarr xs) =>
                  (parseMoves xs).map (fun moves =>
                    ⟨tmdb, name, year, stringToPath sdir, stringToPath oroot, moves⟩)
                | _ => Except.error "moves must be list"
  | _ => Except.error "plan json must be an object"

theorem parseMove_move_to_dict (m : PlannedMove) (h1 : WFPath m.src)
    (h2 : WFPath m.dst) : parseMove (move_to_dict m) = Except.ok m := by
  cases m with
  | mk src dst kind src_id =>
    cases kind <;>
      simp [parseMove, move_to_dict, keySetEq, jGet, require_int, require_str,
        parseKind, kindStr, stringToPath_pathToString src h1,
        stringToPath_pathToString dst h2]

theorem parseMoves_map_move_to_dict (l : List PlannedMove)
    (h : ∀ m ∈ l, WFPath m.src ∧ WFPath m.dst) :
    parseMoves (l.map move_to_dict) = Except.ok l := by
  induction l with
  | nil => rfl
  | cons m rest ih =>
    have hm := h m (List.mem_cons_self _ _)
    have hrest := ih (fun x hx => h x (List.mem_cons_of_mem _ hx))
    simp [parseMoves, parseMove_move_to_dict m hm.1 hm.2, hrest, Except.map]

/-- All paths of a plan are real-`Path`-representable. -/
def WFPlanPaths (plan : RenamePlan) : Prop :=
  WFPath plan.series_dir ∧ WFPath plan.output_root ∧
  ∀ m ∈ plan.moves, WFPath m.src ∧ WFPath m.dst

/-! ### Claim C10 -/

/-- C10: serializing any plan with `rename_plan_to_dict` and parsing the
result with `rename_plan_from_dict` succeeds and returns the plan itself —
`tmdb_id`, series name, year, `series_dir`, `output_root` and the full
ordered move list are preserved.  The well-formedness hypothesis only
excludes model paths that no real `Path` object denotes (an empty segment
list, or a separator inside a segment). -/
theorem c10_plan_dict_roundtrip (plan : RenamePlan) (hwf : WFPlanPaths plan) :
    rename_plan_from_dict (rename_plan_to_dict plan) = Except.ok plan := by
  cases plan with
  | mk tmdb name year sdir oroot moves =>
    obtain ⟨h1, h2, h3⟩ := hwf
    cases year <;>
      simp [rename_plan_from_dict, rename_plan_to_dict, keySetEq, jGet,
        pyEqInt, require_int, require_str, parseYear, Except.map,
        stringToPath_pathToString sdir h1, stringToPath_pathToString oroot h2,
        parseMoves_map_move_to_dict moves h3]

/-- Witness for C10 at a concrete two-move plan. -/
theorem c10_witness :
    rename_plan_from_dict (rename_plan_to_dict
      ⟨77, "剧集", some 2021, ["in", "S"], ["out"],
        [⟨["in", "S", "e1.mkv"], ["out", "S01", "x.mkv"], MoveKind.video, 1⟩,
         ⟨["in", "S", "e1.ass"], ["out", "S01", "x.chs.ass"], MoveKind.subtitle, 2⟩]⟩) =
      Except.ok
        ⟨77, "剧集", some 2021, ["in", "S"], ["out"],
          [⟨["in", "S", "e1.mkv"], ["out", "S01", "x.mkv"], MoveKind.video, 1⟩,
           ⟨["in", "S", "e1.ass"], ["out", "S01", "x.chs.ass"], MoveKind.subtitle, 2⟩]⟩ :=
  c10_plan_dict_roundtrip _
    ⟨by decide, by decide, by
      intro m hm
      fin_cases hm <;> exact ⟨by decide, by decide⟩⟩

/-! ### Dependency graph of the single-stage scheduler

The dependency relation of claim C5: move `Y` must run before move `X`
exactly when `Y.src = X.dst` and `Y ≠ X`.  Since every move contributes at
most one dependency in the code (`src_to_idx.get(dst)`), chains of
dependencies are iterations of `depOf`, and a cycle is a `depOf`-chain
returning to its start. -/

def srcAt (ms : List RMove) (i : Nat) : Option Path :=
  (ms.get? i).map (fun t => t.src)

def dstAt (ms : List RMove) (i : Nat) : Option Path :=
  (ms.get? i).map (fun t => t.dst)

/-- The edge of claim C5: `j` is ordered before `i` iff move `j`'s source
is move `i`'s destination and the moves differ. -/
def claimEdge (ms : List RMove) (j i : Nat) : Prop :=
  j ≠ i ∧ srcAt ms j ≠ none ∧ srcAt ms j = dstAt ms i

instance (ms : List RMove) (j i : Nat) : Decidable (claimEdge ms j i) := by
  unfold claimEdge; infer_instance

/-- Iterated dependency: the move reached after `k` dependency hops from
`i`, or `none` when the chain ended within `k` hops. -/
def iterDep (ms : List RMove) : Nat → Nat → Option Nat
  | 0, i => some i
  | k + 1, i => (depOf ms i).bind (iterDep ms k)

/-- The dependency graph has a cycle: some move reaches itself again after
a positive number of hops. -/
def HasCycle (ms : List RMove) : Prop :=
  ∃ i k, 0 < k ∧ iterDep ms k i = some i

theorem firstSrcIdx_spec (p : Path) :
    ∀ ms j, firstSrcIdx ms p = some j →
      ∃ u, ms.get? j = some u ∧ u.src = p := by
  intro ms
  induction ms with
  | nil => intro j h; cases h
  | cons t rest ih =>
    intro j h
    simp only [firstSrcIdx] at h
    by_cases ht : t.src = p
    · rw [if_pos ht] at h
      cases h
      exact ⟨t, rfl, ht⟩
    · rw [if_neg ht] at h
      cases hr : firstSrcIdx rest p with
      | none => rw [hr] at h; cases h
      | some j0 =>
        rw [hr] at h
        cases h
        rcases ih j0 hr with ⟨u, hu, hsrc⟩
        exact ⟨u, hu, hsrc⟩

/-- With pairwise distinct sources, the first index holding source `p` is
the only index holding it. -/
theorem firstSrcIdx_of_nodup {ms : List RMove}
    (hnd : (ms.map (fun t => t.src)).Nodup)
    (j : Nat) (u : RMove) (hj : ms.get? j = some u) :
    firstSrcIdx ms u.src = some j := by
  induction ms generalizing j with
  | nil => cases hj
  | cons t rest ih =>
    have hnd2 := List.nodup_cons.mp hnd
    cases j with
    | zero =>
      cases hj
      simp [firstSrcIdx]
    | succ j0 =>
      have hj0 : rest.get? j0 = some u := hj
      have ht : t.src ≠ u.src := by
        intro hh
        apply hnd2.1
        show t.src ∈ List.map (fun x => x.src) rest
        rw [hh]
        exact List.mem_map.mpr ⟨u, List.get?_mem hj0, rfl⟩
      simp only [firstSrcIdx, if_neg ht, ih hnd2.2 j0 hj0, Option.map_some']

theorem depOf_bound (ms : List RMove) (i j : Nat)
    (h : depOf ms i = some j) : j < ms.length ∧ j ≠ i := by
  unfold depOf at h
  cases hi : ms.get? i with
  | none => rw [hi, Option.none_bind] at h; cases h
  | some t =>
    rw [hi, Option.some_bind] at h
    cases hf : firstSrcIdx ms t.dst with
    | none => rw [hf, Option.none_bind] at h; cases h
    | some j0 =>
      rw [hf, Option.some_bind] at h
      by_cases hji : j0 = i
      · rw [if_pos hji] at h; cases h
      · rw [if_neg hji] at h
        cases h
        rcases firstSrcIdx_spec t.dst ms j hf with ⟨u, hu, _⟩
        obtain ⟨hlt, _⟩ := List.get?_eq_some.mp hu
        exact ⟨hlt, hji⟩

/-- With pairwise distinct sources the code's dependency map is exactly
the claim's edge relation. -/
theorem depOf_iff_claimEdge (ms : List RMove)
    (hnd : (ms.map (fun t => t.src)).Nodup) (j i : Nat) :
    depOf ms i = some j ↔ claimEdge ms j i := by
  constructor
  · intro h
    unfold depOf at h
    cases hi : ms.get? i with
    | none => rw [hi, Option.none_bind] at h; cases h
    | some t =>
      rw [hi, Option.some_bind] at h
      cases hf : firstSrcIdx ms t.dst with
      | none => rw [hf, Option.none_bind] at h; cases h
      | some j0 =>
        rw [hf, Option.some_bind] at h
        by_cases hji : j0 = i
        · rw [if_pos hji] at h; cases h
        · rw [if_neg hji] at h
          cases h
          rcases firstSrcIdx_spec t.dst ms j hf with ⟨u, hu, hsrc⟩
          refine ⟨hji, ?_, ?_⟩
          · show (ms.get? j).map (fun t => t.src) ≠ none
            rw [hu]
            simp
          · show (ms.get? j).map (fun t => t.src) = (ms.get? i).map (fun t => t.dst)
            rw [hu, hi]
            simp [hsrc]
  · rintro ⟨hne, hsome, heq⟩
    cases hj : ms.get? j with
    | none => rw [srcAt, hj] at hsome; simp at hsome
    | some u =>
      cases hi : ms.get? i with
      | none => rw [srcAt, hj, dstAt, hi] at heq; simp at heq
      | some t =>
        have hsrc : u.src = t.dst := by
          rw [srcAt, hj, dstAt, hi] at heq
          simpa using heq
        have hfirst : firstSrcIdx ms t.dst = some j := by
          rw [← hsrc]
          exact firstSrcIdx_of_nodup hnd j u hj
        unfold depOf
        rw [hi, Option.some_bind, hfirst, Option.some_bind, if_neg hne]

theorem iterDep_add (ms : List RMove) (a b : Nat) (i : Nat) :
    iterDep ms (a + b) i = (iterDep ms a i).bind (iterDep ms b) := by
  induction a generalizing i with
  | zero => simp [iterDep]
  | succ a ih =>
    have hsucc : a + 1 + b = (a + b) + 1 := by omega
    rw [hsucc]
    simp only [iterDep]
    cases hd : depOf ms i with
    | none => simp
    | some j => simp [ih j]

theorem iterDep_none_absorb (ms : List RMove) (k m : Nat) (i : Nat)
    (h : iterDep ms k i = none) : iterDep ms (k + m) i = none := by
  rw [iterDep_add, h, Option.none_bind]

theorem iterDep_cycle_pump (ms : List RMove) (k : Nat) (i : Nat)
    (h : iterDep ms k i = some i) : ∀ m, iterDep ms (m * k) i = some i := by
  intro m
  induction m with
  | zero => simp [iterDep]
  | succ m ih =>
    have hmul : (m + 1) * k = m * k + k := by ring
    rw [hmul, iterDep_add, ih, Option.some_bind]
    exact h

/-- A move on a dependency cycle never terminates its chain. -/
theorem cycle_not_terminates (ms : List RMove) (k : Nat) (i : Nat)
    (hk : 0 < k) (h : iterDep ms k i = some i) :
    ∀ t, iterDep ms t i ≠ none := by
  intro t ht
  have hpump := iterDep_cycle_pump ms k i h t
  have hge : t ≤ t * k := Nat.le_mul_of_pos_right t hk
  have habs := iterDep_none_absorb ms t (t * k - t) i ht
  rw [show t + (t * k - t) = t * k from by omega] at habs
  rw [habs] at hpump
  cases hpump

/-- Any value reached after at least one hop is a valid index. -/
theorem iterDep_pos_bound (ms : List RMove) :
    ∀ k x y, iterDep ms (k + 1) x = some y → y < ms.length := by
  intro k
  induction k with
  | zero =>
    intro x y h
    simp only [iterDep] at h
    cases hd : depOf ms x with
    | none => rw [hd, Option.none_bind] at h; cases h
    | some j =>
      rw [hd, Option.some_bind] at h
      cases h
      exact (depOf_bound ms x y hd).1
  | succ k ih =>
    intro x y h
    simp only [iterDep] at h
    cases hd : depOf ms x with
    | none => rw [hd, Option.none_bind] at h; cases h
    | some j => rw [hd, Option.some_bind] at h; exact ih j y h

/-- A batch all of whose dependency chains end within `ms.length` hops has
no cycle; this gives a decidable sufficient condition for acyclicity. -/
theorem not_hasCycle_of_bounded (ms : List RMove)
    (h : ∀ x, x < ms.length → iterDep ms ms.length x = none) :
    ¬HasCycle ms := by
  rintro ⟨i, k, hk, hcyc⟩
  have hi : i < ms.length := by
    cases k with
    | zero => omega
    | succ k0 => exact iterDep_pos_bound ms k0 i i hcyc
  exact cycle_not_terminates ms k i hk hcyc ms.length (h i hi)

/-- Without a cycle, every chain from a valid index terminates. -/
theorem terminates_of_not_hasCycle (ms : List RMove) (hnc : ¬HasCycle ms)
    (i : Nat) (hi : i < ms.length) : ∃ t, iterDep ms t i = none := by
  by_contra hall
  push_neg at hall
  have hsome : ∀ t, ∃ y, iterDep ms t i = some y := by
    intro t
    cases ht : iterDep ms t i with
    | none => exact absurd ht (hall t)
    | some y => exact ⟨y, rfl⟩
  -- the first `ms.length + 2` chain values repeat, giving a cycle
  have hbound : ∀ t, ∀ y, iterDep ms t i = some y → y < ms.length := by
    intro t y h
    cases t with
    | zero => cases h; exact hi
    | succ t0 => exact iterDep_pos_bound ms t0 i y h
  have hcard : Fintype.card (Fin (ms.length)) < Fintype.card (Fin (ms.length + 2)) := by
    simp
  obtain ⟨a, b, hab, heq⟩ := Fintype.exists_ne_map_eq_of_card_lt
    (fun t : Fin (ms.length + 2) =>
      (⟨(iterDep ms t.val i).getD 0, by
        rcases hsome t.val with ⟨y, hy⟩
        rw [hy]
        exact hbound t.val y hy⟩ : Fin ms.length)) hcard
  -- order the repeated positions
  rcases Nat.lt_or_ge a.val b.val with hlt | hge
  · rcases hsome a.val with ⟨y, hy⟩
    rcases hsome b.val with ⟨z, hz⟩
    have hyz : y = z := by
      have hv := congrArg Fin.val heq
      simp only [hy, hz, Option.getD_some] at hv
      omega
    have hcyc : iterDep ms (b.val - a.val) y = some y := by
      have hsplit := iterDep_add ms a.val (b.val - a.val) i
      rw [show a.val + (b.val - a.val) = b.val from by omega, hz, hy] at hsplit
      simp only [Option.bind] at hsplit
      rw [← hyz] at hsplit
      exact hsplit.symm
    exact hnc ⟨y, b.val - a.val, by omega, hcyc⟩
  · have hlt2 : b.val < a.val := by
      rcases Nat.eq_or_lt_of_le hge with he | hl
      · exact absurd (Fin.ext he.symm) hab
      · exact hl
    rcases hsome b.val with ⟨y, hy⟩
    rcases hsome a.val with ⟨z, hz⟩
    have hyz : y = z := by
      have hv := congrArg Fin.val heq
      simp only [hy, hz, Option.getD_some] at hv
      omega
    have hcyc : iterDep ms (a.val - b.val) y = some y := by
      have hsplit := iterDep_add ms b.val (a.val - b.val) i
      rw [show b.val + (a.val - b.val) = a.val from by omega, hz, hy] at hsplit
      simp only [Option.bind] at hsplit
      rw [← hyz] at hsplit
      exact hsplit.symm
    exact hnc ⟨y, a.val - b.val, by omega, hcyc⟩

/-! Correctness of the Kahn run of `_single_stage_order`. -/

/-- Move `i` is ready after the emitted prefix `done`, as a proposition. -/
def ReadyP (ms : List RMove) (done : List Nat) (i : Nat) : Prop :=
  i < ms.length ∧ i ∉ done ∧ ∀ j, depOf ms i = some j → j ∈ done

theorem isReady_iff (ms : List RMove) (done : List Nat) (i : Nat) :
    isReady ms done i = true ↔ ReadyP ms done i := by
  unfold isReady ReadyP
  cases hd : depOf ms i with
  | none => simp [hd]
  | some j => simp [hd, and_assoc]

theorem mem_readyList (ms : List RMove) (done : List Nat) (i : Nat) :
    i ∈ readyList ms done ↔ ReadyP ms done i := by
  unfold readyList
  rw [List.mem_filter, List.mem_range, isReady_iff]
  constructor
  · rintro ⟨_, h⟩; exact h
  · intro h; exact ⟨h.1, h⟩

theorem readyList_sorted (ms : List RMove) (done : List Nat) :
    (readyList ms done).Pairwise (· < ·) :=
  (List.pairwise_lt_range _).filter _

theorem kahnStep_some (ms : List RMove) (done : List Nat) (i : Nat)
    (h : kahnStep ms done = some i) :
    ReadyP ms done i ∧ ∀ x, ReadyP ms done x → i ≤ x := by
  constructor
  · exact (mem_readyList ms done i).mp (List.mem_of_mem_head? h)
  · intro x hx
    have hxl := (mem_readyList ms done x).mpr hx
    unfold kahnStep at h
    cases hl : readyList ms done with
    | nil => rw [hl] at hxl; cases hxl
    | cons a t =>
      rw [hl] at h
      have ha : a = i := by injection h
      subst ha
      rw [hl] at hxl
      have hp := readyList_sorted ms done
      rw [hl] at hp
      rcases List.mem_cons.mp hxl with rfl | hxt
      · exact Nat.le_refl _
      · exact Nat.le_of_lt (List.rel_of_pairwise_cons hp hxt)

theorem kahnStep_none (ms : List RMove) (done : List Nat)
    (h : kahnStep ms done = none) : ∀ x, ¬ReadyP ms done x := by
  intro x hx
  unfold kahnStep at h
  rw [List.head?_eq_none_iff] at h
  have hm := (mem_readyList ms done x).mpr hx
  rw [h] at hm
  cases hm

/-- The emitted prefix is a faithful transcript of the run: every element
is the step's pick at its position. -/
def IsTrace (ms : List RMove) (o : List Nat) : Prop :=
  ∀ k (h : k < o.length), kahnStep ms (o.take k) = some (o.get ⟨k, h⟩)

/-- Invariant of the run: distinct in-range indices whose dependency
chains terminate, transcribed by `kahnStep`. -/
def TraceInv (ms : List RMove) (o : List Nat) : Prop :=
  o.Nodup ∧ (∀ x ∈ o, x < ms.length) ∧
    (∀ x ∈ o, ∃ t, iterDep ms t x = none) ∧ IsTrace ms o

theorem traceInv_nil (ms : List RMove) : TraceInv ms [] :=
  ⟨List.nodup_nil, by simp, by simp, fun k h => absurd h (by simp)⟩

theorem traceInv_extend {ms : List RMove} {o : List Nat} {i : Nat}
    (h : TraceInv ms o) (hstep : kahnStep ms o = some i) :
    TraceInv ms (o ++ [i]) := by
  obtain ⟨hnd, hbd, hterm, htr⟩ := h
  obtain ⟨⟨hi_lt, hi_nin, hi_dep⟩, _⟩ := kahnStep_some ms o i hstep
  refine ⟨?_, ?_, ?_, ?_⟩
  · simp [List.nodup_append, hnd, hi_nin]
  · intro x hx
    rcases List.mem_append.mp hx with hx | hx
    · exact hbd x hx
    · simp at hx; subst hx; exact hi_lt
  · intro x hx
    rcases List.mem_append.mp hx with hx | hx
    · exact hterm x hx
    · simp at hx
      subst hx
      cases hd : depOf ms x with
      | none => exact ⟨1, by simp [iterDep, hd]⟩
      | some j =>
        obtain ⟨t, ht⟩ := hterm j (hi_dep j hd)
        exact ⟨t + 1, by simp [iterDep, hd, ht]⟩
  · intro k hk
    rcases Nat.lt_or_ge k o.length with hko | hko
    · have hget : (o ++ [i]).get ⟨k, hk⟩ = o.get ⟨k, hko⟩ := by
        exact List.getElem_append_left hko
      rw [hget, List.take_append_of_le_length (Nat.le_of_lt hko)]
      exact htr k hko
    · have hk_eq : k = o.length := by
        have hlen := hk
        simp at hlen
        omega
      subst hk_eq
      have hget : (o ++ [i]).get ⟨o.length, hk⟩ = i := by simp
      rw [hget, List.take_left]
      exact hstep

theorem kahnRun_inv (ms : List RMove) :
    ∀ fuel o, TraceInv ms o → TraceInv ms (kahnRun ms fuel o) := by
  intro fuel
  induction fuel with
  | zero => intro o h; exact h
  | succ f ih =>
    intro o h
    simp only [kahnRun]
    cases hstep : kahnStep ms o with
    | none => exact h
    | some i => exact ih (o ++ [i]) (traceInv_extend h hstep)

theorem exists_not_mem_of_short (n : Nat) (o : List Nat) (hnd : o.Nodup)
    (hbd : ∀ x ∈ o, x < n) (hlen : o.length < n) :
    ∃ i, i < n ∧ i ∉ o := by
  have hsub : o.toFinset ⊆ Finset.range n := by
    intro x hx
    exact Finset.mem_range.mpr (hbd x (List.mem_toFinset.mp hx))
  have hcard : o.toFinset.card < (Finset.range n).card := by
    rw [List.toFinset_card_of_nodup hnd, Finset.card_range]
    exact hlen
  have hne : o.toFinset ≠ Finset.range n := by
    intro hh
    rw [hh] at hcard
    exact Nat.lt_irrefl _ hcard
  obtain ⟨i, hir, hio⟩ := Finset.exists_of_ssubset (hsub.ssubset_of_ne hne)
  exact ⟨i, Finset.mem_range.mp hir, fun hm => hio (List.mem_toFinset.mpr hm)⟩

/-- Progress: while some index is missing and no dependency cycle exists,
the step finds a ready index. -/
theorem kahnStep_progress (ms : List RMove) (o : List Nat)
    (hnc : ¬HasCycle ms) (hnd : o.Nodup) (hbd : ∀ x ∈ o, x < ms.length)
    (hlen : o.length < ms.length) : ∃ i, kahnStep ms o = some i := by
  cases hstep : kahnStep ms o with
  | some i => exact ⟨i, rfl⟩
  | none =>
    exfalso
    have hnoready := kahnStep_none ms o hstep
    obtain ⟨i0, hi0n, hi0o⟩ := exists_not_mem_of_short ms.length o hnd hbd hlen
    have hchain : ∀ k, ∃ x, iterDep ms k i0 = some x ∧ x < ms.length ∧ x ∉ o := by
      intro k
      induction k with
      | zero => exact ⟨i0, rfl, hi0n, hi0o⟩
      | succ k ih =>
        obtain ⟨x, hx, hxl, hxo⟩ := ih
        have hnr := hnoready x
        unfold ReadyP at hnr
        push_neg at hnr
        obtain ⟨j, hdep, hjo⟩ := hnr hxl hxo
        refine ⟨j, ?_, (depOf_bound ms x j hdep).1, hjo⟩
        have hadd := iterDep_add ms k 1 i0
        rw [hadd, hx, Option.some_bind]
        simp [iterDep, hdep]
    obtain ⟨t, ht⟩ := terminates_of_not_hasCycle ms hnc i0 hi0n
    obtain ⟨x, hx, _, _⟩ := hchain t
    rw [ht] at hx
    cases hx

theorem kahnRun_length (ms : List RMove) (hnc : ¬HasCycle ms) :
    ∀ fuel o, TraceInv ms o → o.length + fuel = ms.length →
      (kahnRun ms fuel o).length = ms.length := by
  intro fuel
  induction fuel with
  | zero =>
    intro o _ hlen
    simpa [kahnRun] using hlen
  | succ f ih =>
    intro o hinv hlen
    have hlt : o.length < ms.length := by omega
    obtain ⟨i, hi⟩ := kahnStep_progress ms o hnc hinv.1 hinv.2.1 hlt
    have hrun : kahnRun ms (f + 1) o = kahnRun ms f (o ++ [i]) := by
      simp [kahnRun, hi]
    rw [hrun]
    refine ih (o ++ [i]) (traceInv_extend hinv hi) ?_
    simp
    omega

theorem mem_of_full (l : List Nat) (n : Nat) (hnd : l.Nodup)
    (hbd : ∀ x ∈ l, x < n) (hlen : l.length = n) :
    ∀ x, x < n → x ∈ l := by
  have hsub : l.toFinset ⊆ Finset.range n := by
    intro x hx
    exact Finset.mem_range.mpr (hbd x (List.mem_toFinset.mp hx))
  have heq : l.toFinset = Finset.range n :=
    Finset.eq_of_subset_of_card_le hsub
      (by rw [List.toFinset_card_of_nodup hnd, Finset.card_range, hlen])
  intro x hx
  have hxm : x ∈ l.toFinset := by
    rw [heq]
    exact Finset.mem_range.mpr hx
  exact List.mem_toFinset.mp hxm

theorem indexOf_lt_of_mem_take :
    ∀ (l : List Nat) (k j : Nat), j ∈ l.take k → l.indexOf j < k := by
  intro l
  induction l with
  | nil => intro k j h; simp at h
  | cons a t ih =>
    intro k j h
    cases k with
    | zero => simp at h
    | succ k0 =>
      simp only [List.take] at h
      by_cases hj : a = j
      · subst hj
        simp [List.indexOf_cons]
      · rcases List.mem_cons.mp h with rfl | ht
        · exact absurd rfl hj
        · have hlt := ih k0 j ht
          simp only [List.indexOf_cons, beq_iff_eq, if_neg hj, cond_eq_if]
          omega

theorem single_stage_order_ok (ms : List RMove) (hnc : ¬HasCycle ms) :
    single_stage_order ms = Except.ok (kahnRun ms ms.length []) := by
  unfold single_stage_order
  rw [if_pos (kahnRun_length ms hnc ms.length [] (traceInv_nil ms) (by simp))]

theorem single_stage_order_cycle (ms : List RMove) (hcyc : HasCycle ms) :
    single_stage_order ms =
      Except.error "cycle detected in rename plan; re-run with --two-stage" := by
  obtain ⟨i, k, hk, hcy⟩ := hcyc
  have hi_lt : i < ms.length := by
    cases k with
    | zero => omega
    | succ k0 => exact iterDep_pos_bound ms k0 i i hcy
  have hnt := cycle_not_terminates ms k i hk hcy
  have hinv := kahnRun_inv ms ms.length [] (traceInv_nil ms)
  have hne : (kahnRun ms ms.length []).length ≠ ms.length := by
    intro hlen
    have hmem := mem_of_full (kahnRun ms ms.length []) ms.length hinv.1
      hinv.2.1 hlen i hi_lt
    obtain ⟨t, ht⟩ := hinv.2.2.1 i hmem
    exact hnt t ht
  unfold single_stage_order
  rw [if_neg hne]

/-! ### Claim C5 -/

/-- A batch with a duplicated source: moves 1 and 2 both read `a`, move 0
writes into `a`. -/
def msDup : List RMove :=
  [⟨⟨["e"], ["a"], MoveKind.video, 1⟩, ["e"], ["a"]⟩,
   ⟨⟨["a"], ["c"], MoveKind.video, 2⟩, ["a"], ["c"]⟩,
   ⟨⟨["a"], ["d"], MoveKind.video, 3⟩, ["a"], ["d"]⟩]

/-- Counterexample to C5 as stated: the batch's claim graph (edges 1→0 and
2→0) is acyclic, the scheduler succeeds with order `[1, 0, 2]`, yet the
edge `2 before 0` is violated — move 0 runs before move 2 although move
2's source `a` is move 0's destination.  The code keeps only the first
index per source in `src_to_idx`, so move 2's edge is dropped. -/
theorem c5_counterexample :
    single_stage_order msDup = Except.ok [1, 0, 2] ∧
    claimEdge msDup 2 0 ∧
    [1, 0, 2].indexOf 0 < [1, 0, 2].indexOf 2 := by
  refine ⟨by decide, by decide, by decide⟩

/-- C5 amended: provided no two moves of the batch share a source (so the
first-occurrence `src_to_idx` map is exact), the claim holds: the claim's
edge relation agrees with the code's dependency map; on an acyclic graph
the scheduler returns a permutation of all batch indices in which every
prerequisite precedes its dependent and each position picks the smallest
ready index; on a cyclic graph it returns the cycle error, and the
single-stage executor then returns that error with the filesystem
untouched — no move of the batch is executed. -/
theorem c5_scheduler_correct (ms : List RMove)
    (hnd : (ms.map (fun t => t.src)).Nodup) :
    (∀ j i, claimEdge ms j i ↔ depOf ms i = some j) ∧
    (¬HasCycle ms →
      ∃ order, single_stage_order ms = Except.ok order ∧
        order.Nodup ∧ order.length = ms.length ∧
        (∀ x, x ∈ order ↔ x < ms.length) ∧
        (∀ j i, claimEdge ms j i → order.indexOf j < order.indexOf i) ∧
        (∀ k (hk : k < order.length),
          ReadyP ms (order.take k) (order.get ⟨k, hk⟩) ∧
          ∀ x, ReadyP ms (order.take k) x → order.get ⟨k, hk⟩ ≤ x)) ∧
    (HasCycle ms →
      single_stage_order ms =
        Except.error "cycle detected in rename plan; re-run with --two-stage" ∧
      ∀ failAt plan fs, apply_single_stage failAt plan ms fs =
        (fs, Except.error "cycle detected in rename plan; re-run with --two-stage")) := by
  refine ⟨fun j i => (depOf_iff_claimEdge ms hnd j i).symm, ?_, ?_⟩
  · intro hnc
    have hinv := kahnRun_inv ms ms.length [] (traceInv_nil ms)
    have hlen := kahnRun_length ms hnc ms.length [] (traceInv_nil ms) (by simp)
    refine ⟨kahnRun ms ms.length [], single_stage_order_ok ms hnc, hinv.1, hlen,
      ?_, ?_, ?_⟩
    · intro x
      constructor
      · intro hx; exact hinv.2.1 x hx
      · intro hx; exact mem_of_full _ _ hinv.1 hinv.2.1 hlen x hx
    · intro j i hedge
      have hdep : depOf ms i = some j := (depOf_iff_claimEdge ms hnd j i).mpr hedge
      have hi_lt : i < ms.length := by
        rcases hedge with ⟨_, hs, heq⟩
        have hd : dstAt ms i ≠ none := by rw [← heq]; exact hs
        unfold dstAt at hd
        cases hgi : ms.get? i with
        | none => rw [hgi] at hd; simp at hd
        | some t =>
          obtain ⟨hlt, _⟩ := List.get?_eq_some.mp hgi
          exact hlt
      have hi_mem : i ∈ kahnRun ms ms.length [] :=
        mem_of_full _ _ hinv.1 hinv.2.1 hlen i hi_lt
      have hpos : (kahnRun ms ms.length []).indexOf i <
          (kahnRun ms ms.length []).length :=
        List.indexOf_lt_length.mpr hi_mem
      have hstep := hinv.2.2.2 _ hpos
      have hget : (kahnRun ms ms.length []).get
          ⟨(kahnRun ms ms.length []).indexOf i, hpos⟩ = i := by
        rw [List.get_eq_getElem]
        exact List.getElem_indexOf hpos
      rw [hget] at hstep
      obtain ⟨⟨_, _, hdeps⟩, _⟩ := kahnStep_some ms _ i hstep
      exact indexOf_lt_of_mem_take _ _ j (hdeps j hdep)
    · intro k hk
      exact kahnStep_some ms _ _ (hinv.2.2.2 k hk)
  · intro hcyc
    refine ⟨single_stage_order_cycle ms hcyc, ?_⟩
    intro failAt plan fs
    simp [apply_single_stage, single_stage_order_cycle ms hcyc]

/-- An acyclic two-move chain with distinct sources. -/
def msChain : List RMove :=
  [⟨⟨["a"], ["b"], MoveKind.video, 1⟩, ["a"], ["b"]⟩,
   ⟨⟨["b"], ["c"], MoveKind.video, 2⟩, ["b"], ["c"]⟩]

/-- Witness for the amended C5 at a concrete acyclic batch. -/
theorem c5_witness :
    ∃ order, single_stage_order msChain = Except.ok order ∧
      order.Nodup ∧ order.length = msChain.length ∧
      (∀ x, x ∈ order ↔ x < msChain.length) ∧
      (∀ j i, claimEdge msChain j i → order.indexOf j < order.indexOf i) ∧
      (∀ k (hk : k < order.length),
        ReadyP msChain (order.take k) (order.get ⟨k, hk⟩) ∧
        ∀ x, ReadyP msChain (order.take k) x → order.get ⟨k, hk⟩ ≤ x) :=
  (c5_scheduler_correct msChain (by decide)).2.1
    (not_hasCycle_of_bounded msChain (by decide))

/-! ### Execution of a validated batch

Helper lemmas for claim C7: the shape of the validated batch, the effect
of the filesystem primitives, and the duality between a batch and its
rollback batch. -/

/-- A successful validation loop returns exactly the non-no-op moves, in
order, wrapped with their (identity-resolved) paths. -/
theorem moves_to_apply_loop_eq (fs : FS) (sources : List Path) :
    ∀ l ms, moves_to_apply_loop fs sources l = Except.ok ms →
      ms = (l.filter (fun m => m.src ≠ m.dst)).map
        (fun m => ⟨m, m.src, m.dst⟩) := by
  intro l
  induction l with
  | nil =>
    intro ms h
    cases h
    rfl
  | cons move rest ih =>
    intro ms h
    simp only [moves_to_apply_loop] at h
    by_cases h1 : fileAt fs move.src = none
    · rw [if_pos h1] at h; exact Except.noConfusion h
    rw [if_neg h1] at h
    by_cases h2 : validate_parent_creatable fs move.dst = false
    · rw [if_pos h2] at h; exact Except.noConfusion h
    rw [if_neg h2] at h
    by_cases h3 : (fs move.dst).isSome = true ∧ move.dst ∉ sources
    · rw [if_pos h3] at h; exact Except.noConfusion h
    rw [if_neg h3] at h
    by_cases h4 : move.src = move.dst
    · rw [if_pos h4] at h
      rw [ih ms h]
      simp [List.filter_cons, h4]
    · rw [if_neg h4] at h
      cases hr : moves_to_apply_loop fs sources rest with
      | error e => rw [hr] at h; simp [Except.map] at h
      | ok tail =>
        rw [hr] at h
        simp only [Except.map] at h
        cases h
        rw [ih tail hr]
        simp [List.filter_cons, h4]

/-- If every move of the list passes the three per-move checks, the
validation loop succeeds. -/
theorem moves_to_apply_loop_ok_of_checks (fs : FS) (sources : List Path) :
    ∀ l, (∀ m ∈ l, fileAt fs m.src ≠ none ∧
        validate_parent_creatable fs m.dst = true ∧
        ¬((fs m.dst).isSome = true ∧ m.dst ∉ sources)) →
      moves_to_apply_loop fs sources l =
        Except.ok ((l.filter (fun m => m.src ≠ m.dst)).map
          (fun m => ⟨m, m.src, m.dst⟩)) := by
  intro l
  induction l with
  | nil => intro _; rfl
  | cons move rest ih =>
    intro h
    have hm := h move (List.mem_cons_self _ _)
    have hrest := ih (fun x hx => h x (List.mem_cons_of_mem _ hx))
    simp only [moves_to_apply_loop]
    rw [if_neg hm.1, if_neg (by rw [hm.2.1]; simp), if_neg hm.2.2]
    by_cases h4 : move.src = move.dst
    · rw [if_pos h4, hrest]
      simp [List.filter_cons, h4]
    · rw [if_neg h4, hrest]
      simp [List.filter_cons, h4, Except.map]

/-- A duplicated value under an injective-on-members map forces equal
members. -/
theorem nodup_map_mem_inj {α β : Type} [DecidableEq β] (f : α → β) :
    ∀ l : List α, (l.map f).Nodup →
      ∀ a ∈ l, ∀ b ∈ l, f a = f b → a = b := by
  intro l
  induction l with
  | nil => intro _ a ha; cases ha
  | cons x t ih =>
    intro hnd a ha b hb hf
    have hnd2 := List.nodup_cons.mp hnd
    rcases List.mem_cons.mp ha with rfl | hat
    · rcases List.mem_cons.mp hb with rfl | hbt
      · rfl
      · exact absurd (hf ▸ List.mem_map.mpr ⟨b, hbt, rfl⟩) hnd2.1
    · rcases List.mem_cons.mp hb with rfl | hbt
      · exact absurd (hf ▸ List.mem_map.mpr ⟨a, hat, rfl⟩) hnd2.1
      · exact ih hnd2.2 a hat b hbt hf

theorem mkdirAll_ok_fileAt {fs fs2 : FS} {p : Path}
    (h : mkdirAll fs p = Except.ok fs2) :
    ∀ q, fileAt fs2 q = fileAt fs q := by
  unfold mkdirAll at h
  by_cases hg : (ancestorsIncl p).all (fun q => (fileAt fs q).isNone) = true
  · rw [if_pos hg] at h
    cases h
    intro q
    by_cases hq : q ∈ ancestorsIncl p
    · have hfq := List.all_eq_true.mp hg q hq
      simp only [Option.isNone_iff_eq_none] at hfq
      rw [hfq]
      simp [fileAt, hq]
    · simp [fileAt, hq]
  · rw [if_neg hg] at h
    exact Except.noConfusion h

theorem mkdirAll_ok_dir {fs fs2 : FS} {p : Path}
    (h : mkdirAll fs p = Except.ok fs2) :
    ∀ q, fs2 q = some Entry.dir → fs q = some Entry.dir ∨ q ∈ ancestorsIncl p := by
  unfold mkdirAll at h
  by_cases hg : (ancestorsIncl p).all (fun q => (fileAt fs q).isNone) = true
  · rw [if_pos hg] at h
    cases h
    intro q hq
    by_cases hm : q ∈ ancestorsIncl p
    · exact Or.inr hm
    · simp only [if_neg hm] at hq
      exact Or.inl hq
  · rw [if_neg hg] at h
    exact Except.noConfusion h

theorem mkdirAll_ok_of_guard {fs : FS} {p : Path}
    (h : ∀ q ∈ ancestorsIncl p, fileAt fs q = none) :
    mkdirAll fs p =
      Except.ok (fun q => if q ∈ ancestorsIncl p then some Entry.dir else fs q) := by
  unfold mkdirAll
  rw [if_pos]
  exact List.all_eq_true.mpr (fun q hq => by
    simp [Option.isNone_iff_eq_none, h q hq])

theorem fileAt_eq_some_iff (fs : FS) (p : Path) (c : Nat) :
    fileAt fs p = some c ↔ fs p = some (Entry.file c) := by
  unfold fileAt
  cases h : fs p with
  | none => simp
  | some e => cases e <;> simp

/-- `iterDep` with the extra hop at the far end. -/
theorem iterDep_succ_right (ms : List RMove) (k i : Nat) :
    iterDep ms (k + 1) i = (iterDep ms k i).bind (depOf ms) := by
  have hadd := iterDep_add ms k 1 i
  rw [hadd]
  cases hk : iterDep ms k i with
  | none => simp
  | some x =>
    simp only [Option.some_bind]
    show (depOf ms x).bind (iterDep ms 0) = depOf ms x
    cases hd : depOf ms x <;> simp [iterDep]

/-- A full Kahn run certifies the absence of cycles. -/
theorem not_hasCycle_of_order_ok (ms : List RMove) (order : List Nat)
    (h : single_stage_order ms = Except.ok order) : ¬HasCycle ms := by
  intro hcyc
  rw [single_stage_order_cycle ms hcyc] at h
  exact Except.noConfusion h

/-- Chains in a dual dependency map are reversed chains of the original:
a cycle in one is a cycle in the other. -/
theorem iterDep_dual (msA msB : List RMove)
    (hdual : ∀ i j, depOf msA i = some j ↔ depOf msB j = some i) :
    ∀ k a b, iterDep msA k a = some b → iterDep msB k b = some a := by
  intro k
  induction k with
  | zero =>
    intro a b h
    cases h
    rfl
  | succ k ih =>
    intro a b h
    simp only [iterDep] at h
    cases hd : depOf msA a with
    | none => rw [hd, Option.none_bind] at h; cases h
    | some x =>
      rw [hd, Option.some_bind] at h
      have hx := ih x b h
      rw [iterDep_succ_right, hx, Option.some_bind]
      exact (hdual a x).mp hd

theorem not_hasCycle_dual (msA msB : List RMove)
    (hdual : ∀ i j, depOf msA i = some j ↔ depOf msB j = some i)
    (h : ¬HasCycle msB) : ¬HasCycle msA := by
  rintro ⟨i, k, hk, hcy⟩
  exact h ⟨i, k, hk, iterDep_dual msA msB hdual k i i hcy⟩

/-- The regular-file layer of the filesystem after executing the moves of
`done` (a set of batch indices) against `base`: a path that is some
executed destination holds the content its move's source had in `base`; a
path that is some executed source (and no destination) holds nothing; any
other path is untouched. -/
def expectedFile (base : FS) (ms : List RMove) (done : List Nat) (p : Path) :
    Option Nat :=
  match done.find? (fun k => decide (dstAt ms k = some p)) with
  | some k =>
    match ms.get? k with
    | some t => fileAt base t.src
    | none => none
  | none =>
    if done.any (fun k => decide (srcAt ms k = some p)) then none
    else fileAt base p

/-- Directories present after executing `done`: either already present in
`base` or created as an ancestor of an executed destination. -/
def DirSub (base : FS) (ms : List RMove) (done : List Nat) (fs : FS) : Prop :=
  ∀ p, fs p = some Entry.dir →
    base p = some Entry.dir ∨
    ∃ k ∈ done, ∃ t, ms.get? k = some t ∧ p ∈ ancestorsIncl t.dst.dropLast

theorem expectedFile_nil (base : FS) (ms : List RMove) (p : Path) :
    expectedFile base ms [] p = fileAt base p := rfl

theorem fileAt_congr (f g : FS) (p : Path) (h : f p = g p) :
    fileAt f p = fileAt g p := by
  unfold fileAt
  rw [h]

theorem expectedFile_dst_hit (base : FS) (ms : List RMove) (done : List Nat)
    (p : Path) (k : Nat) (t : RMove)
    (hfind : done.find? (fun k => decide (dstAt ms k = some p)) = some k)
    (ht : ms.get? k = some t) :
    expectedFile base ms done p = fileAt base t.src := by
  unfold expectedFile
  rw [hfind]
  show (match ms.get? k with
        | some t => fileAt base t.src
        | none => none) = fileAt base t.src
  rw [ht]

theorem expectedFile_src_hit (base : FS) (ms : List RMove) (done : List Nat)
    (p : Path)
    (hfind : done.find? (fun k => decide (dstAt ms k = some p)) = none)
    (hany : done.any (fun k => decide (srcAt ms k = some p)) = true) :
    expectedFile base ms done p = none := by
  unfold expectedFile
  rw [hfind]
  show (if (done.any fun k => decide (srcAt ms k = some p)) = true then none
        else fileAt base p) = none
  rw [hany]
  simp

theorem expectedFile_no_hits (base : FS) (ms : List RMove) (done : List Nat)
    (p : Path)
    (hfind : done.find? (fun k => decide (dstAt ms k = some p)) = none)
    (hany : done.any (fun k => decide (srcAt ms k = some p)) = false) :
    expectedFile base ms done p = fileAt base p := by
  unfold expectedFile
  rw [hfind]
  show (if (done.any fun k => decide (srcAt ms k = some p)) = true then none
        else fileAt base p) = fileAt base p
  rw [hany]
  simp

theorem get_append_length {α : Type} (a : α) :
    ∀ (l1 l2 : List α) (h : l1.length < (l1 ++ a :: l2).length),
      (l1 ++ a :: l2).get ⟨l1.length, h⟩ = a := by
  intro l1
  induction l1 with
  | nil => intro l2 h; rfl
  | cons x t ih => intro l2 h; exact ih l2 (by simpa using h)

theorem srcAt_inj (ms : List RMove)
    (hnd : (ms.map (fun t => t.src)).Nodup) (k k' : Nat) (p : Path)
    (h1 : srcAt ms k = some p) (h2 : srcAt ms k' = some p) : k = k' := by
  have hm1 : (ms.map (fun t => t.src)).get? k = some p := by
    rw [List.get?_map]
    unfold srcAt at h1
    exact h1
  have hm2 : (ms.map (fun t => t.src)).get? k' = some p := by
    rw [List.get?_map]
    unfold srcAt at h2
    exact h2
  have hk : k < (ms.map (fun t => t.src)).length := by
    by_contra hge
    rw [List.get?_eq_none.mpr (by omega)] at hm1
    cases hm1
  exact List.get?_inj hk hnd (hm1.trans hm2.symm)

theorem dstAt_inj (ms : List RMove)
    (hnd : (ms.map (fun t => t.dst)).Nodup) (k k' : Nat) (p : Path)
    (h1 : dstAt ms k = some p) (h2 : dstAt ms k' = some p) : k = k' := by
  have hm1 : (ms.map (fun t => t.dst)).get? k = some p := by
    rw [List.get?_map]
    unfold dstAt at h1
    exact h1
  have hm2 : (ms.map (fun t => t.dst)).get? k' = some p := by
    rw [List.get?_map]
    unfold dstAt at h2
    exact h2
  have hk : k < (ms.map (fun t => t.dst)).length := by
    by_contra hge
    rw [List.get?_eq_none.mpr (by omega)] at hm1
    cases hm1
  exact List.get?_inj hk hnd (hm1.trans hm2.symm)

theorem validate_parent_creatable_iff (fs : FS) (dst : Path) :
    validate_parent_creatable fs dst = true ↔
      ∀ q ∈ ancestorsIncl dst.dropLast, fileAt fs q = none := by
  unfold validate_parent_creatable
  rw [List.all_eq_true]
  constructor
  · intro h q hq
    have := h q hq
    simpa [Option.isNone_iff_eq_none] using this
  · intro h q hq
    simp [Option.isNone_iff_eq_none, h q hq]

/-- Every emitted index has its dependency emitted no later than the same
prefix. -/
theorem trace_dep_closed (ms : List RMove) (order : List Nat)
    (htrace : IsTrace ms order) (done rest : List Nat)
    (hsplit : order = done ++ rest) :
    ∀ k ∈ done, ∀ j, depOf ms k = some j → j ∈ done := by
  intro k hk j hdep
  have hkord : k ∈ order := hsplit ▸ List.mem_append.mpr (Or.inl hk)
  have hpos : order.indexOf k < order.length := List.indexOf_lt_length.mpr hkord
  have hgets : order.get ⟨order.indexOf k, hpos⟩ = k := by
    rw [List.get_eq_getElem]
    exact List.getElem_indexOf hpos
  have hstep := htrace (order.indexOf k) hpos
  rw [hgets] at hstep
  obtain ⟨⟨_, _, hdeps⟩, _⟩ := kahnStep_some ms _ k hstep
  have hjtake : j ∈ order.take (order.indexOf k) := hdeps j hdep
  have hidx : order.indexOf k = done.indexOf k := by
    rw [hsplit]
    exact List.indexOf_append_of_mem hk
  rw [hidx] at hjtake
  have htake : order.take (done.indexOf k) = done.take (done.indexOf k) := by
    rw [hsplit]
    exact List.take_append_of_le_length
      (Nat.le_of_lt (List.indexOf_lt_length.mpr hk))
  rw [htake] at hjtake
  exact List.take_subset _ _ hjtake

/-- The move loop of `_apply_single_stage` succeeds on a batch whose
moves have distinct sources and distinct destinations, sources present as
regular files, creatable destination parents, destinations that are free
or in-batch sources, and no destination lying on another destination's
directory chain — when run in a scheduler order.  The resulting file layer
is `expectedFile` over the whole order and every directory is an old one
or a created destination ancestor. -/
theorem runSingle_ok (base : FS) (ms : List RMove)
    (hsrc_nd : (ms.map (fun t => t.src)).Nodup)
    (hdst_nd : (ms.map (fun t => t.dst)).Nodup)
    (hfileok : ∀ t ∈ ms, fileAt base t.src ≠ none)
    (hpar : ∀ t ∈ ms, validate_parent_creatable base t.dst = true)
    (hdstok : ∀ t ∈ ms, base t.dst = none ∨ ∃ u ∈ ms, u.src = t.dst)
    (hdd : ∀ t ∈ ms, ∀ u ∈ ms, t.dst ∉ ancestorsIncl u.dst.dropLast)
    (order : List Nat) (hordNd : order.Nodup)
    (hordBd : ∀ x ∈ order, x < ms.length) (htrace : IsTrace ms order) :
    ∀ rest done (st : ExecSt) applied,
      order = done ++ rest →
      (∀ p, fileAt st.fs p = expectedFile base ms done p) →
      DirSub base ms done st.fs →
      ∃ stF appliedF,
        runSingle none ms st applied rest = (stF, appliedF, true) ∧
        (∀ p, fileAt stF.fs p = expectedFile base ms (done ++ rest) p) ∧
        DirSub base ms (done ++ rest) stF.fs := by
  intro rest
  induction rest with
  | nil =>
    intro done st applied _ hchar hdir
    exact ⟨st, applied, rfl, by simpa using hchar, by simpa using hdir⟩
  | cons idx rest ih =>
    intro done st applied hsplit hchar hdir
    have hidx_mem : idx ∈ order := by
      rw [hsplit]
      exact List.mem_append.mpr (Or.inr (List.mem_cons_self _ _))
    have hidx_lt : idx < ms.length := hordBd idx hidx_mem
    obtain ⟨t, ht⟩ : ∃ t, ms.get? idx = some t :=
      ⟨ms.get ⟨idx, hidx_lt⟩, List.get?_eq_get hidx_lt⟩
    have ht_mem : t ∈ ms := List.get?_mem ht
    have hidx_nin : idx ∉ done := by
      intro hin
      have hnd2 := List.nodup_append.mp (hsplit ▸ hordNd)
      exact hnd2.2.2 hin (List.mem_cons_self _ _)
    have hsrcAt : srcAt ms idx = some t.src := by
      unfold srcAt
      rw [ht]
      rfl
    have hdstAt : dstAt ms idx = some t.dst := by
      unfold dstAt
      rw [ht]
      rfl
    -- no executed destination equals any path that move idx still reads:
    have hdst_done_src : ∀ k ∈ done, dstAt ms k ≠ some t.src := by
      intro k hk hdstk
      have hedge : claimEdge ms idx k := by
        refine ⟨?_, by rw [hsrcAt]; simp, by rw [hsrcAt, hdstk]⟩
        intro hh
        exact hidx_nin (hh ▸ hk)
      have hdep : depOf ms k = some idx := (depOf_iff_claimEdge ms hsrc_nd idx k).mpr hedge
      exact hidx_nin (trace_dep_closed ms order htrace done (idx :: rest) hsplit k hk idx hdep)
    have hsrc_done_src : ∀ k ∈ done, srcAt ms k ≠ some t.src := by
      intro k hk hsrck
      have hkidx : k = idx := srcAt_inj ms hsrc_nd k idx t.src hsrck hsrcAt
      exact hidx_nin (hkidx ▸ hk)
    -- the source file of move idx is intact:
    have hsrc_val : fileAt st.fs t.src = fileAt base t.src := by
      rw [hchar t.src]
      refine expectedFile_no_hits base ms done t.src
        (List.find?_eq_none.mpr (by
          intro k hk
          simp only [decide_eq_true_iff]
          exact hdst_done_src k hk)) ?_
      cases hb : done.any (fun k => decide (srcAt ms k = some t.src)) with
      | false => rfl
      | true =>
        exfalso
        obtain ⟨k, hk, hsk⟩ := List.any_eq_true.mp hb
        simp only [decide_eq_true_iff] at hsk
        exact hsrc_done_src k hk hsk
    obtain ⟨c, hc⟩ : ∃ c, fileAt base t.src = some c := by
      cases hcc : fileAt base t.src with
      | none => exact absurd hcc (hfileok t ht_mem)
      | some c => exact ⟨c, rfl⟩
    -- the mkdir guard holds:
    have hguard : ∀ q ∈ ancestorsIncl t.dst.dropLast, fileAt st.fs q = none := by
      intro q hq
      rw [hchar q]
      have hfindq : done.find? (fun k => decide (dstAt ms k = some q)) = none :=
        List.find?_eq_none.mpr (by
          intro k hk
          simp only [decide_eq_true_iff]
          intro hdk
          cases hu : ms.get? k with
          | none => rw [dstAt, hu] at hdk; cases hdk
          | some u =>
            have hud : u.dst = q := by
              rw [dstAt, hu] at hdk
              simpa using hdk
            exact hdd u (List.get?_mem hu) t ht_mem (hud ▸ hq))
      cases hb : done.any (fun k => decide (srcAt ms k = some q)) with
      | true => exact expectedFile_src_hit base ms done q hfindq hb
      | false =>
        rw [expectedFile_no_hits base ms done q hfindq hb]
        exact (validate_parent_creatable_iff base t.dst).mp (hpar t ht_mem) q hq
    have hmkdir := mkdirAll_ok_of_guard hguard
    -- after mkdir the destination is still not a directory:
    have hdst_not_dir :
        (fun q => if q ∈ ancestorsIncl t.dst.dropLast then some Entry.dir
          else st.fs q) t.dst ≠ some Entry.dir := by
      intro hds
      replace hds : (if t.dst ∈ ancestorsIncl t.dst.dropLast then some Entry.dir
          else st.fs t.dst) = some Entry.dir := hds
      rw [if_neg (hdd t ht_mem t ht_mem)] at hds
      rcases hdir t.dst hds with hb | ⟨k, hk, u, hu, hanc⟩
      · rcases hdstok t ht_mem with hn | ⟨u, hu, hus⟩
        · rw [hn] at hb; cases hb
        · have := hfileok u hu
          rw [hus] at this
          apply this
          unfold fileAt
          rw [hb]
      · exact hdd t ht_mem u (List.get?_mem hu) hanc
    -- run the move:
    have hsrc_file :
        (fun q => if q ∈ ancestorsIncl t.dst.dropLast then some Entry.dir
          else st.fs q) t.src = some (Entry.file c) := by
      show (if t.src ∈ ancestorsIncl t.dst.dropLast then some Entry.dir
          else st.fs t.src) = some (Entry.file c)
      rw [if_neg (by
        intro hin
        have := hguard t.src hin
        rw [hsrc_val, hc] at this
        cases this)]
      have := hsrc_val.trans hc
      exact (fileAt_eq_some_iff st.fs t.src c).mp this
    -- the updated filesystem:
    have hstep :
        runSingle none ms st applied (idx :: rest) =
          runSingle none ms
            ⟨(fun q =>
              if q = t.dst then some (Entry.file c)
              else if q = t.src then none
              else if q ∈ ancestorsIncl t.dst.dropLast then some Entry.dir
              else st.fs q), st.calls + 1⟩
            (applied ++ [t]) rest := by
      simp only [runSingle, ht, hmkdir]
      have hmv : moveFile
          (fun q => if q ∈ ancestorsIncl t.dst.dropLast then some Entry.dir
            else st.fs q) t.src t.dst =
          Except.ok (fun q =>
            if q = t.dst then some (Entry.file c)
            else if q = t.src then none
            else if q ∈ ancestorsIncl t.dst.dropLast then some Entry.dir
            else st.fs q) := by
        unfold moveFile
        rw [hsrc_file]
        cases hdv : (fun q => if q ∈ ancestorsIncl t.dst.dropLast then some Entry.dir
            else st.fs q) t.dst with
        | none => rfl
        | some e =>
          cases e with
          | dir => exact absurd hdv hdst_not_dir
          | file c2 => rfl
      simp only [tryMove, hmv]
      simp
    rw [hstep]
    -- characterization after the move:
    have hchar2 : ∀ p,
        fileAt (fun q =>
          if q = t.dst then some (Entry.file c)
          else if q = t.src then none
          else if q ∈ ancestorsIncl t.dst.dropLast then some Entry.dir
          else st.fs q) p = expectedFile base ms (done ++ [idx]) p := by
      intro p
      by_cases hpd : p = t.dst
      · subst hpd
        have hfind : (done ++ [idx]).find?
            (fun k => decide (dstAt ms k = some t.dst)) = some idx := by
          rw [List.find?_append]
          rw [List.find?_eq_none.mpr (by
            intro k hk
            simp only [decide_eq_true_iff]
            intro hdk
            exact hidx_nin ((dstAt_inj ms hdst_nd k idx t.dst hdk hdstAt) ▸ hk))]
          simp [List.find?, hdstAt]
        rw [expectedFile_dst_hit base ms (done ++ [idx]) t.dst idx t hfind ht, hc]
        have hv : (fun q =>
            if q = t.dst then some (Entry.file c)
            else if q = t.src then none
            else if q ∈ ancestorsIncl t.dst.dropLast then some Entry.dir
            else st.fs q) t.dst = some (Entry.file c) := by
          show (if t.dst = t.dst then some (Entry.file c)
              else if t.dst = t.src then none
              else if t.dst ∈ ancestorsIncl t.dst.dropLast then some Entry.dir
              else st.fs t.dst) = some (Entry.file c)
          rw [if_pos rfl]
        unfold fileAt
        rw [hv]
      · by_cases hps : p = t.src
        · subst hps
          have hfind : (done ++ [idx]).find?
              (fun k => decide (dstAt ms k = some t.src)) = none := by
            rw [List.find?_append]
            rw [List.find?_eq_none.mpr (by
              intro k hk
              simp only [decide_eq_true_iff]
              exact hdst_done_src k hk)]
            have : t.dst ≠ t.src := by
              intro hh
              exact hpd (by rw [hh])
            simp [List.find?, hdstAt, this]
          rw [expectedFile_src_hit base ms (done ++ [idx]) t.src hfind (by
            rw [List.any_append]
            simp [hsrcAt])]
          simp [fileAt, hpd]
        · have hfind : (done ++ [idx]).find?
              (fun k => decide (dstAt ms k = some p)) =
              done.find? (fun k => decide (dstAt ms k = some p)) := by
            rw [List.find?_append]
            have : ([idx].find? (fun k => decide (dstAt ms k = some p))) = none := by
              have hne : t.dst ≠ p := fun hh => hpd hh.symm
              simp [List.find?, hdstAt, hne]
            rw [this]
            cases done.find? (fun k => decide (dstAt ms k = some p)) <;> rfl
          have hany : (done ++ [idx]).any
              (fun k => decide (srcAt ms k = some p)) =
              done.any (fun k => decide (srcAt ms k = some p)) := by
            rw [List.any_append]
            have hne2 : t.src ≠ p := fun hh => hps hh.symm
            simp [hsrcAt, hne2]
          have hleft :
              fileAt (fun q =>
                if q = t.dst then some (Entry.file c)
                else if q = t.src then none
                else if q ∈ ancestorsIncl t.dst.dropLast then some Entry.dir
                else st.fs q) p = fileAt st.fs p := by
            by_cases hpa : p ∈ ancestorsIncl t.dst.dropLast
            · have hv : (fun q =>
                  if q = t.dst then some (Entry.file c)
                  else if q = t.src then none
                  else if q ∈ ancestorsIncl t.dst.dropLast then some Entry.dir
                  else st.fs q) p = some Entry.dir := by
                show (if p = t.dst then some (Entry.file c)
                    else if p = t.src then none
                    else if p ∈ ancestorsIncl t.dst.dropLast then some Entry.dir
                    else st.fs p) = some Entry.dir
                rw [if_neg hpd, if_neg hps, if_pos hpa]
              have hfl : fileAt (fun q =>
                  if q = t.dst then some (Entry.file c)
                  else if q = t.src then none
                  else if q ∈ ancestorsIncl t.dst.dropLast then some Entry.dir
                  else st.fs q) p = none := by
                unfold fileAt
                rw [hv]
              rw [hfl]
              exact (hguard p hpa).symm
            · refine fileAt_congr _ _ p ?_
              show (if p = t.dst then some (Entry.file c)
                  else if p = t.src then none
                  else if p ∈ ancestorsIncl t.dst.dropLast then some Entry.dir
                  else st.fs p) = st.fs p
              rw [if_neg hpd, if_neg hps, if_neg hpa]
          rw [hleft, hchar p]
          unfold expectedFile
          rw [hfind, hany]
    -- directories after the move:
    have hdir2 : DirSub base ms (done ++ [idx])
        (fun q =>
          if q = t.dst then some (Entry.file c)
          else if q = t.src then none
          else if q ∈ ancestorsIncl t.dst.dropLast then some Entry.dir
          else st.fs q) := by
      intro p hp
      replace hp : (if p = t.dst then some (Entry.file c)
          else if p = t.src then none
          else if p ∈ ancestorsIncl t.dst.dropLast then some Entry.dir
          else st.fs p) = some Entry.dir := hp
      by_cases hpd : p = t.dst
      · rw [if_pos hpd] at hp; cases hp
      rw [if_neg hpd] at hp
      by_cases hps : p = t.src
      · rw [if_pos hps] at hp; cases hp
      rw [if_neg hps] at hp
      by_cases hpa : p ∈ ancestorsIncl t.dst.dropLast
      · exact Or.inr ⟨idx, List.mem_append.mpr (Or.inr (List.mem_cons_self _ _)), t, ht, hpa⟩
      rw [if_neg hpa] at hp
      rcases hdir p hp with hb | ⟨k, hk, u, hu, huanc⟩
      · exact Or.inl hb
      · exact Or.inr ⟨k, List.mem_append.mpr (Or.inl hk), u, hu, huanc⟩
    have hsplit2 : order = (done ++ [idx]) ++ rest := by
      rw [hsplit, List.append_assoc]
      rfl
    obtain ⟨stF, appliedF, hrun, hcharF, hdirF⟩ :=
      ih (done ++ [idx])
        ⟨(fun q =>
          if q = t.dst then some (Entry.file c)
          else if q = t.src then none
          else if q ∈ ancestorsIncl t.dst.dropLast then some Entry.dir
          else st.fs q), st.calls + 1⟩
        (applied ++ [t]) hsplit2 hchar2 hdir2
    have happ : (done ++ [idx]) ++ rest = done ++ idx :: rest := by
      rw [List.append_assoc]
      rfl
    refine ⟨stF, appliedF, hrun, ?_, ?_⟩
    · rw [← happ]
      exact hcharF
    · rw [← happ]
      exact hdirF

/-! ### Claim C7: the round trip -/

/-- The rollback plan as a plan value: the same plan metadata with
`build_rollback_moves` as the move list. -/
def rollback_plan (plan : RenamePlan) : RenamePlan :=
  ⟨plan.tmdb_id, plan.series_name_zh_cn, plan.year, plan.series_dir,
    plan.output_root, build_rollback_moves plan⟩

/-- The validated batch of a plan: its non-no-op moves with their
(identity-resolved) paths; `moves_to_apply` returns exactly this list on
success. -/
def batchOf (plan : RenamePlan) : List RMove :=
  (plan.moves.filter (fun m => m.src ≠ m.dst)).map (fun m => ⟨m, m.src, m.dst⟩)

/-- The src/dst-swapped resolved move. -/
def swapRM (t : RMove) : RMove :=
  ⟨⟨t.move.dst, t.move.src, t.move.kind, t.move.src_id⟩, t.dst, t.src⟩

/-- The file layer after executing a whole batch: each destination holds
its source's old content, each vacated source holds nothing, everything
else is untouched. -/
def finalFile (base : FS) (ms : List RMove) (p : Path) : Option Nat :=
  match ms.find? (fun t => decide (t.dst = p)) with
  | some t => fileAt base t.src
  | none =>
    if ms.any (fun t => decide (t.src = p)) then none
    else fileAt base p

/-- Order-free form of `DirSub`: every directory present after the batch
is an old one or a created destination ancestor. -/
def DirSubP (base : FS) (ms : List RMove) (fs : FS) : Prop :=
  ∀ p, fs p = some Entry.dir →
    base p = some Entry.dir ∨ ∃ u ∈ ms, p ∈ ancestorsIncl u.dst.dropLast

theorem raw_none_of (fs : FS) (p : Path) (h1 : fileAt fs p = none)
    (h2 : fs p ≠ some Entry.dir) : fs p = none := by
  cases h : fs p with
  | none => rfl
  | some e =>
    cases e with
    | dir => exact absurd h h2
    | file c =>
      have : fileAt fs p = some c := by
        unfold fileAt
        rw [h]
      rw [h1] at this
      cases this

theorem finalFile_hit (base : FS) (ms : List RMove) (p : Path) (t : RMove)
    (hfind : ms.find? (fun t => decide (t.dst = p)) = some t) :
    finalFile base ms p = fileAt base t.src := by
  unfold finalFile
  rw [hfind]

theorem finalFile_src (base : FS) (ms : List RMove) (p : Path)
    (hfind : ms.find? (fun t => decide (t.dst = p)) = none)
    (hany : ms.any (fun t => decide (t.src = p)) = true) :
    finalFile base ms p = none := by
  unfold finalFile
  rw [hfind]
  show (if (ms.any fun t => decide (t.src = p)) = true then none
        else fileAt base p) = none
  rw [hany]
  simp

theorem finalFile_none (base : FS) (ms : List RMove) (p : Path)
    (hfind : ms.find? (fun t => decide (t.dst = p)) = none)
    (hany : ms.any (fun t => decide (t.src = p)) = false) :
    finalFile base ms p = fileAt base p := by
  unfold finalFile
  rw [hfind]
  show (if (ms.any fun t => decide (t.src = p)) = true then none
        else fileAt base p) = fileAt base p
  rw [hany]
  simp

/-- With pairwise-distinct destinations the batch find hits exactly the
member itself. -/
theorem find_dst_first (ms : List RMove)
    (hdst_nd : (ms.map (fun t => t.dst)).Nodup) (u : RMove) (hu : u ∈ ms) :
    ms.find? (fun t => decide (t.dst = u.dst)) = some u := by
  cases hf : ms.find? (fun t => decide (t.dst = u.dst)) with
  | none =>
    have := List.find?_eq_none.mp hf u hu
    simp at this
  | some w =>
    have hw_mem := List.mem_of_find?_eq_some hf
    have hw_dst : w.dst = u.dst := by
      have := List.find?_some hf
      simpa using this
    rw [nodup_map_mem_inj (fun t => t.dst) ms hdst_nd w hw_mem u hu hw_dst]

theorem find_dst_none (ms : List RMove) (p : Path)
    (h : ∀ t ∈ ms, t.dst ≠ p) :
    ms.find? (fun t => decide (t.dst = p)) = none :=
  List.find?_eq_none.mpr (by
    intro t ht
    simpa using h t ht)

theorem any_src_of_mem (ms : List RMove) (p : Path) (u : RMove)
    (hu : u ∈ ms) (hus : u.src = p) :
    ms.any (fun t => decide (t.src = p)) = true :=
  List.any_eq_true.mpr ⟨u, hu, by simp [hus]⟩

theorem any_src_none (ms : List RMove) (p : Path)
    (h : ∀ t ∈ ms, t.src ≠ p) :
    ms.any (fun t => decide (t.src = p)) = false := by
  cases hb : ms.any (fun t => decide (t.src = p)) with
  | false => rfl
  | true =>
    obtain ⟨t, ht, hts⟩ := List.any_eq_true.mp hb
    simp only [decide_eq_true_iff] at hts
    exact absurd hts (h t ht)

theorem mem_batchOf (plan : RenamePlan) (t : RMove) :
    t ∈ batchOf plan ↔
      ∃ m ∈ plan.moves, m.src ≠ m.dst ∧ t = ⟨m, m.src, m.dst⟩ := by
  unfold batchOf
  rw [List.mem_map]
  constructor
  · rintro ⟨m, hm, rfl⟩
    rw [List.mem_filter] at hm
    exact ⟨m, hm.1, by simpa using hm.2, rfl⟩
  · rintro ⟨m, hm, hne, rfl⟩
    exact ⟨m, List.mem_filter.mpr ⟨hm, by simpa using hne⟩, rfl⟩

theorem batchOf_src_nodup (plan : RenamePlan)
    (h : (plan.moves.map (fun m => m.src)).Nodup) :
    ((batchOf plan).map (fun t => t.src)).Nodup := by
  unfold batchOf
  rw [List.map_map]
  exact h.sublist ((List.filter_sublist plan.moves).map _)

theorem batchOf_dst_nodup (plan : RenamePlan)
    (h : (plan.moves.map (fun m => m.dst)).Nodup) :
    ((batchOf plan).map (fun t => t.dst)).Nodup := by
  unfold batchOf
  rw [List.map_map]
  exact h.sublist ((List.filter_sublist plan.moves).map _)

/-- The batch of the rollback plan is the swapped batch of the plan. -/
theorem batch_swap : ∀ l : List PlannedMove,
    ((l.map (fun move =>
        (⟨move.dst, move.src, move.kind, move.src_id⟩ : PlannedMove))).filter
      (fun m => m.src ≠ m.dst)).map (fun m => (⟨m, m.src, m.dst⟩ : RMove)) =
    ((l.filter (fun m => m.src ≠ m.dst)).map
      (fun m => (⟨m, m.src, m.dst⟩ : RMove))).map swapRM := by
  intro l
  induction l with
  | nil => rfl
  | cons m rest ih =>
    simp only [List.map_cons, List.filter_cons]
    by_cases h : m.src = m.dst
    · rw [if_neg (by simp [h]), if_neg (by simp [h])]
      exact ih
    · rw [if_pos (by simp only [decide_eq_true_iff]; exact fun hh => h hh.symm),
        if_pos (by simp only [decide_eq_true_iff]; exact h)]
      simp only [List.map_cons]
      rw [ih]
      rfl

theorem batchOf_rollback (plan : RenamePlan) :
    batchOf (rollback_plan plan) = (batchOf plan).map swapRM :=
  batch_swap plan.moves

theorem srcAt_swap (ms : List RMove) (k : Nat) :
    srcAt (ms.map swapRM) k = dstAt ms k := by
  unfold srcAt dstAt
  rw [List.get?_map]
  cases ms.get? k <;> rfl

theorem dstAt_swap (ms : List RMove) (k : Nat) :
    dstAt (ms.map swapRM) k = srcAt ms k := by
  unfold srcAt dstAt
  rw [List.get?_map]
  cases ms.get? k <;> rfl

theorem claimEdge_swap (ms : List RMove) (j i : Nat) :
    claimEdge (ms.map swapRM) j i ↔ claimEdge ms i j := by
  unfold claimEdge
  rw [srcAt_swap, dstAt_swap]
  constructor
  · rintro ⟨h1, h2, h3⟩
    refine ⟨Ne.symm h1, ?_, h3.symm⟩
    rw [← h3]
    exact h2
  · rintro ⟨h1, h2, h3⟩
    refine ⟨Ne.symm h1, ?_, h3.symm⟩
    rw [h3] at h2
    exact h2

/-- The dependency maps of a batch and its swapped batch are dual. -/
theorem depOf_swap_dual (ms : List RMove)
    (hsrc_nd : (ms.map (fun t => t.src)).Nodup)
    (hdst_nd : (ms.map (fun t => t.dst)).Nodup) :
    ∀ i j, depOf (ms.map swapRM) i = some j ↔ depOf ms j = some i := by
  have hRsrc : ((ms.map swapRM).map (fun t => t.src)).Nodup := by
    rw [List.map_map]
    exact hdst_nd
  intro i j
  rw [depOf_iff_claimEdge (ms.map swapRM) hRsrc j i,
    depOf_iff_claimEdge ms hsrc_nd i j]
  exact claimEdge_swap ms j i

/-- Over a full order, the executed-prefix file layer is the whole-batch
file layer. -/
theorem expectedFile_perm (base : FS) (ms : List RMove) (order : List Nat)
    (hdst_nd : (ms.map (fun t => t.dst)).Nodup)
    (hfull : ∀ x, x ∈ order ↔ x < ms.length) :
    ∀ p, expectedFile base ms order p = finalFile base ms p := by
  intro p
  cases hf : order.find? (fun k => decide (dstAt ms k = some p)) with
  | some k =>
    have hk_dst : dstAt ms k = some p := by
      have := List.find?_some hf
      simpa using this
    obtain ⟨t, ht, htd⟩ : ∃ t, ms.get? k = some t ∧ t.dst = p := by
      unfold dstAt at hk_dst
      cases hg : ms.get? k with
      | none => rw [hg] at hk_dst; cases hk_dst
      | some t =>
        rw [hg] at hk_dst
        exact ⟨t, rfl, by simpa using hk_dst⟩
    have ht_mem : t ∈ ms := List.get?_mem ht
    have hfindm : ms.find? (fun t => decide (t.dst = p)) = some t := by
      rw [← htd]
      exact find_dst_first ms hdst_nd t ht_mem
    rw [expectedFile_dst_hit base ms order p k t hf ht,
      finalFile_hit base ms p t hfindm]
  | none =>
    have hnod : ∀ t ∈ ms, t.dst ≠ p := by
      intro t ht htp
      obtain ⟨i, hgi⟩ := List.mem_iff_get?.mp ht
      have hi_lt : i < ms.length := (List.get?_eq_some.mp hgi).1
      have := List.find?_eq_none.mp hf i ((hfull i).mpr hi_lt)
      simp only [decide_eq_true_iff] at this
      apply this
      unfold dstAt
      rw [hgi]
      simp [htp]
    have hfindm := find_dst_none ms p hnod
    have hany_eq : order.any (fun k => decide (srcAt ms k = some p)) =
        ms.any (fun t => decide (t.src = p)) := by
      cases hb : ms.any (fun t => decide (t.src = p)) with
      | true =>
        obtain ⟨t, ht, hts⟩ := List.any_eq_true.mp hb
        simp only [decide_eq_true_iff] at hts
        obtain ⟨i, hgi⟩ := List.mem_iff_get?.mp ht
        have hi_lt : i < ms.length := (List.get?_eq_some.mp hgi).1
        refine List.any_eq_true.mpr ⟨i, (hfull i).mpr hi_lt, ?_⟩
        have hsi : srcAt ms i = some p := by
          unfold srcAt
          rw [hgi]
          simp [hts]
        simp [hsi]
      | false =>
        cases hob : order.any (fun k => decide (srcAt ms k = some p)) with
        | false => rfl
        | true =>
          obtain ⟨i, hio, his⟩ := List.any_eq_true.mp hob
          simp only [decide_eq_true_iff] at his
          obtain ⟨t, hgt, hts⟩ : ∃ t, ms.get? i = some t ∧ t.src = p := by
            unfold srcAt at his
            cases hg : ms.get? i with
            | none => rw [hg] at his; cases his
            | some t =>
              rw [hg] at his
              exact ⟨t, rfl, by simpa using his⟩
          have hcon : ms.any (fun t => decide (t.src = p)) = true :=
            List.any_eq_true.mpr ⟨t, List.get?_mem hgt, by simp [hts]⟩
          rw [hb] at hcon
          cases hcon
    cases hb : ms.any (fun t => decide (t.src = p)) with
    | true =>
      rw [expectedFile_src_hit base ms order p hf (hany_eq.trans hb),
        finalFile_src base ms p hfindm hb]
    | false =>
      rw [expectedFile_no_hits base ms order p hf (hany_eq.trans hb),
        finalFile_none base ms p hfindm hb]

/-- A validated, acyclic, well-separated batch makes the non-staged apply
succeed, with the whole-batch file layer and only old or created
directories. -/
theorem apply_plan_ok (fs0 : FS) (plan : RenamePlan) (tempDir : Path)
    (ms : List RMove)
    (hms : moves_to_apply fs0 plan = Except.ok ms)
    (hsrc_nd : (ms.map (fun t => t.src)).Nodup)
    (hdst_nd : (ms.map (fun t => t.dst)).Nodup)
    (hfileok : ∀ t ∈ ms, fileAt fs0 t.src ≠ none)
    (hpar : ∀ t ∈ ms, validate_parent_creatable fs0 t.dst = true)
    (hdstok : ∀ t ∈ ms, fs0 t.dst = none ∨ ∃ u ∈ ms, u.src = t.dst)
    (hdd : ∀ t ∈ ms, ∀ u ∈ ms, t.dst ∉ ancestorsIncl u.dst.dropLast)
    (hnc : ¬HasCycle ms) :
    ∃ F applied,
      apply_rename_plan fs0 plan false false tempDir none =
        (F, Except.ok ⟨false, applied, build_rollback_moves plan, none⟩) ∧
      (∀ p, fileAt F p = finalFile fs0 ms p) ∧
      DirSubP fs0 ms F := by
  by_cases hemp : ms = []
  · subst hemp
    refine ⟨fs0, [], ?_, ?_, ?_⟩
    · unfold apply_rename_plan
      rw [hms]
      rfl
    · intro p
      rfl
    · intro p hp
      exact Or.inl hp
  · have horder := single_stage_order_ok ms hnc
    have hordInv := kahnRun_inv ms ms.length [] (traceInv_nil ms)
    obtain ⟨hordNd, hordBd, _, htrace⟩ := hordInv
    have hlen := kahnRun_length ms hnc ms.length [] (traceInv_nil ms) (by simp)
    have hfull : ∀ x, x ∈ kahnRun ms ms.length [] ↔ x < ms.length := by
      intro x
      exact ⟨hordBd x, mem_of_full _ _ hordNd hordBd hlen x⟩
    obtain ⟨stF, appliedF, hrun, hchar, hdir⟩ :=
      runSingle_ok fs0 ms hsrc_nd hdst_nd hfileok hpar hdstok hdd
        (kahnRun ms ms.length []) hordNd hordBd htrace
        (kahnRun ms ms.length []) [] ⟨fs0, 0⟩ [] (by simp)
        (fun p => (expectedFile_nil fs0 ms p).symm)
        (fun p hp => Or.inl hp)
    refine ⟨stF.fs,
      appliedF.map (fun t => ⟨t.move.src, t.move.dst, t.move.kind, t.move.src_id⟩),
      ?_, ?_, ?_⟩
    · unfold apply_rename_plan
      rw [hms]
      have hne : ms.isEmpty = false := by
        cases ms with
        | nil => exact absurd rfl hemp
        | cons a l => rfl
      simp only [Bool.false_eq_true, if_false, hne, apply_single_stage, horder,
        hrun]
      simp
    · intro p
      have := hchar p
      rw [List.nil_append] at this
      rw [this]
      exact expectedFile_perm fs0 ms (kahnRun ms ms.length []) hdst_nd hfull p
    · intro p hp
      rcases hdir p hp with hb | ⟨k, hk, t, hgt, hanc⟩
      · exact Or.inl hb
      · rw [List.nil_append] at hk
        exact Or.inr ⟨t, List.get?_mem hgt, hanc⟩

/-- C7 amended: for a plan with pairwise-distinct sources, pairwise-distinct
destinations, sources present as regular files, destination parent chains
free of regular files, every occupied destination the source of a real
(non-no-op) move, no destination lying on any source's or destination's
parent-directory chain, source parent chains free of regular files, and an
acyclic batch, the non-staged apply succeeds, and applying the returned
rollback plan (every move src/dst-swapped, same kind and src_id, original
order) succeeds and restores every regular file path and content exactly
(directories created for destinations may remain). -/
theorem c7_round_trip (fs0 : FS) (plan : RenamePlan) (tempDir : Path)
    (hsrc_nd : (plan.moves.map (fun m => m.src)).Nodup)
    (hdst_nd : (plan.moves.map (fun m => m.dst)).Nodup)
    (hfileok : ∀ m ∈ plan.moves, fileAt fs0 m.src ≠ none)
    (hpar : ∀ m ∈ plan.moves, validate_parent_creatable fs0 m.dst = true)
    (hdstok : ∀ m ∈ plan.moves, fs0 m.dst = none ∨
      ∃ u ∈ plan.moves, u.src = m.dst ∧ u.src ≠ u.dst)
    (hdd : ∀ m ∈ plan.moves, ∀ u ∈ plan.moves,
      m.dst ∉ ancestorsIncl u.dst.dropLast)
    (hds : ∀ m ∈ plan.moves, ∀ u ∈ plan.moves,
      m.dst ∉ ancestorsIncl u.src.dropLast)
    (hanc : ∀ m ∈ plan.moves, ∀ q ∈ ancestorsIncl m.src.dropLast,
      fileAt fs0 q = none)
    (hnc : ¬HasCycle (batchOf plan)) :
    ∃ F applied1 fs2 applied2,
      apply_rename_plan fs0 plan false false tempDir none =
        (F, Except.ok ⟨false, applied1, build_rollback_moves plan, none⟩) ∧
      apply_rename_plan F (rollback_plan plan) false false tempDir none =
        (fs2, Except.ok ⟨false, applied2,
          build_rollback_moves (rollback_plan plan), none⟩) ∧
      ∀ p, fileAt fs2 p = fileAt fs0 p := by
  have hmsF : moves_to_apply fs0 plan = Except.ok (batchOf plan) := by
    unfold moves_to_apply batchOf
    apply moves_to_apply_loop_ok_of_checks
    intro m hm
    refine ⟨hfileok m hm, hpar m hm, ?_⟩
    rintro ⟨hsome, hnin⟩
    rcases hdstok m hm with hnone | ⟨u, hu, hus, _⟩
    · simp [hnone] at hsome
    · exact hnin (by
        unfold sourcesList
        exact List.mem_map.mpr ⟨u, hu, hus⟩)
  have hmem : ∀ t ∈ batchOf plan, t.move ∈ plan.moves ∧
      t.move.src ≠ t.move.dst ∧ t.src = t.move.src ∧ t.dst = t.move.dst := by
    intro t ht
    obtain ⟨m, hm, hne, rfl⟩ := (mem_batchOf plan t).mp ht
    exact ⟨hm, hne, rfl, rfl⟩
  have hsrcF := batchOf_src_nodup plan hsrc_nd
  have hdstF := batchOf_dst_nodup plan hdst_nd
  have hfileokF : ∀ t ∈ batchOf plan, fileAt fs0 t.src ≠ none := by
    intro t ht
    obtain ⟨hm, _, hs, _⟩ := hmem t ht
    rw [hs]
    exact hfileok t.move hm
  have hparF : ∀ t ∈ batchOf plan,
      validate_parent_creatable fs0 t.dst = true := by
    intro t ht
    obtain ⟨hm, _, _, hd⟩ := hmem t ht
    rw [hd]
    exact hpar t.move hm
  have hdstokF : ∀ t ∈ batchOf plan,
      fs0 t.dst = none ∨ ∃ u ∈ batchOf plan, u.src = t.dst := by
    intro t ht
    obtain ⟨hm, _, _, hd⟩ := hmem t ht
    rcases hdstok t.move hm with hnone | ⟨u, hu, hus, hune⟩
    · rw [hd]
      exact Or.inl hnone
    · refine Or.inr ⟨⟨u, u.src, u.dst⟩,
        (mem_batchOf plan _).mpr ⟨u, hu, hune, rfl⟩, ?_⟩
      show u.src = t.dst
      rw [hd]
      exact hus
  have hddF : ∀ t ∈ batchOf plan, ∀ u ∈ batchOf plan,
      t.dst ∉ ancestorsIncl u.dst.dropLast := by
    intro t ht u hu
    obtain ⟨hmt, _, _, hdt⟩ := hmem t ht
    obtain ⟨hmu, _, _, hdu⟩ := hmem u hu
    rw [hdt, hdu]
    exact hdd t.move hmt u.move hmu
  obtain ⟨F, applied1, happly1, hcharF, hdirF⟩ :=
    apply_plan_ok fs0 plan tempDir (batchOf plan) hmsF hsrcF hdstF hfileokF
      hparF hdstokF hddF hnc
  have hFdst : ∀ m ∈ plan.moves, fileAt F m.dst = fileAt fs0 m.src := by
    intro m hm
    by_cases hne : m.src = m.dst
    · rw [hcharF m.dst]
      have hfind : (batchOf plan).find? (fun t => decide (t.dst = m.dst)) = none := by
        apply find_dst_none
        intro t ht htd
        obtain ⟨hmt, hnet, _, hdt⟩ := hmem t ht
        have hmd : t.move.dst = m.dst := by
          rw [← hdt]
          exact htd
        have hmm : t.move = m :=
          nodup_map_mem_inj (fun m => m.dst) plan.moves hdst_nd
            t.move hmt m hm hmd
        apply hnet
        rw [hmm]
        exact hne
      have hany : (batchOf plan).any (fun t => decide (t.src = m.dst)) = false := by
        apply any_src_none
        intro t ht hts
        obtain ⟨hmt, hnet, hst, _⟩ := hmem t ht
        have hmsrc : t.move.src = m.src := by
          rw [← hst, hts, ← hne]
        have hmm : t.move = m :=
          nodup_map_mem_inj (fun m => m.src) plan.moves hsrc_nd
            t.move hmt m hm hmsrc
        apply hnet
        rw [hmm]
        exact hne
      rw [finalFile_none fs0 (batchOf plan) m.dst hfind hany]
      rw [← hne]
    · have hwmem : (⟨m, m.src, m.dst⟩ : RMove) ∈ batchOf plan :=
        (mem_batchOf plan _).mpr ⟨m, hm, hne, rfl⟩
      have hfind : (batchOf plan).find? (fun t => decide (t.dst = m.dst)) =
          some ⟨m, m.src, m.dst⟩ :=
        find_dst_first (batchOf plan) hdstF ⟨m, m.src, m.dst⟩ hwmem
      rw [hcharF m.dst,
        finalFile_hit fs0 (batchOf plan) m.dst ⟨m, m.src, m.dst⟩ hfind]
  have hFchain : ∀ m ∈ plan.moves, ∀ q ∈ ancestorsIncl m.src.dropLast,
      fileAt F q = none := by
    intro m hm q hq
    rw [hcharF q]
    have hfind : (batchOf plan).find? (fun t => decide (t.dst = q)) = none := by
      apply find_dst_none
      intro t ht htd
      obtain ⟨hmt, _, _, hdt⟩ := hmem t ht
      apply hds t.move hmt m hm
      rw [← hdt, htd]
      exact hq
    cases hb : (batchOf plan).any (fun t => decide (t.src = q)) with
    | true => exact finalFile_src fs0 (batchOf plan) q hfind hb
    | false =>
      rw [finalFile_none fs0 (batchOf plan) q hfind hb]
      exact hanc m hm q hq
  have hFsrc_gone : ∀ m ∈ plan.moves,
      m.src ∉ plan.moves.map (fun u => u.dst) → F m.src = none := by
    intro m hm hnin
    have hne : m.src ≠ m.dst := by
      intro hh
      exact hnin (by
        rw [hh]
        exact List.mem_map.mpr ⟨m, hm, rfl⟩)
    apply raw_none_of
    · rw [hcharF m.src]
      have hfind : (batchOf plan).find? (fun t => decide (t.dst = m.src)) = none := by
        apply find_dst_none
        intro t ht htd
        obtain ⟨hmt, _, _, hdt⟩ := hmem t ht
        exact hnin (by
          rw [← htd, hdt]
          exact List.mem_map.mpr ⟨t.move, hmt, rfl⟩)
      have hany : (batchOf plan).any (fun t => decide (t.src = m.src)) = true :=
        any_src_of_mem _ _ (⟨m, m.src, m.dst⟩ : RMove)
          ((mem_batchOf plan _).mpr ⟨m, hm, hne, rfl⟩) rfl
      exact finalFile_src fs0 (batchOf plan) m.src hfind hany
    · intro hdirM
      rcases hdirF m.src hdirM with hb | ⟨u, hu, huanc⟩
      · have hf := hfileok m hm
        unfold fileAt at hf
        rw [hb] at hf
        exact hf rfl
      · obtain ⟨hmu, _, _, hdu⟩ := hmem u hu
        have hnone := (validate_parent_creatable_iff fs0 u.move.dst).mp
          (hpar u.move hmu) m.src (by
            rw [← hdu]
            exact huanc)
        exact hfileok m hm hnone
  have hsources : sourcesList (rollback_plan plan) =
      plan.moves.map (fun m => m.dst) := by
    show (plan.moves.map (fun move =>
        (⟨move.dst, move.src, move.kind, move.src_id⟩ : PlannedMove))).map
        (fun m => m.src) = plan.moves.map (fun m => m.dst)
    rw [List.map_map]
    exact List.map_congr_left (fun m _ => rfl)
  have hmemR : ∀ rm ∈ (rollback_plan plan).moves,
      ∃ m ∈ plan.moves, rm = ⟨m.dst, m.src, m.kind, m.src_id⟩ := by
    intro rm hrm
    obtain ⟨m, hm, rfl⟩ := List.mem_map.mp hrm
    exact ⟨m, hm, rfl⟩
  have hmsR : moves_to_apply F (rollback_plan plan) =
      Except.ok ((batchOf plan).map swapRM) := by
    have hok : moves_to_apply F (rollback_plan plan) =
        Except.ok (batchOf (rollback_plan plan)) := by
      unfold moves_to_apply batchOf
      apply moves_to_apply_loop_ok_of_checks
      intro rm hrm
      obtain ⟨m, hm, rfl⟩ := hmemR rm hrm
      refine ⟨?_, ?_, ?_⟩
      · show fileAt F m.dst ≠ none
        rw [hFdst m hm]
        exact hfileok m hm
      · show validate_parent_creatable F m.src = true
        rw [validate_parent_creatable_iff]
        exact hFchain m hm
      · show ¬((F m.src).isSome = true ∧
          m.src ∉ sourcesList (rollback_plan plan))
        rintro ⟨hsome, hnin⟩
        rw [hsources] at hnin
        rw [hFsrc_gone m hm hnin] at hsome
        simp at hsome
    rw [hok, batchOf_rollback]
  have hmemR2 : ∀ v ∈ (batchOf plan).map swapRM,
      ∃ u ∈ batchOf plan, v = swapRM u := by
    intro v hv
    obtain ⟨u, hu, rfl⟩ := List.mem_map.mp hv
    exact ⟨u, hu, rfl⟩
  have hsrcR : (((batchOf plan).map swapRM).map (fun t => t.src)).Nodup := by
    rw [List.map_map]
    exact hdstF
  have hdstR : (((batchOf plan).map swapRM).map (fun t => t.dst)).Nodup := by
    rw [List.map_map]
    exact hsrcF
  have hfileokR : ∀ v ∈ (batchOf plan).map swapRM, fileAt F v.src ≠ none := by
    intro v hv
    obtain ⟨u, hu, rfl⟩ := hmemR2 v hv
    obtain ⟨hmu, _, hsu, hdu⟩ := hmem u hu
    show fileAt F u.dst ≠ none
    rw [hdu, hFdst u.move hmu, ← hsu]
    exact hfileokF u hu
  have hparR : ∀ v ∈ (batchOf plan).map swapRM,
      validate_parent_creatable F v.dst = true := by
    intro v hv
    obtain ⟨u, hu, rfl⟩ := hmemR2 v hv
    obtain ⟨hmu, _, hsu, _⟩ := hmem u hu
    show validate_parent_creatable F u.src = true
    rw [hsu, validate_parent_creatable_iff]
    exact hFchain u.move hmu
  have hdstokR : ∀ v ∈ (batchOf plan).map swapRM,
      F v.dst = none ∨ ∃ w ∈ (batchOf plan).map swapRM, w.src = v.dst := by
    intro v hv
    obtain ⟨u, hu, rfl⟩ := hmemR2 v hv
    obtain ⟨hmu, hneu, hsu, _⟩ := hmem u hu
    show F u.src = none ∨ ∃ w ∈ (batchOf plan).map swapRM, w.src = u.src
    by_cases hin : u.src ∈ plan.moves.map (fun m => m.dst)
    · obtain ⟨m2, hm2, hm2d⟩ := List.mem_map.mp hin
      have hm2ne : m2.src ≠ m2.dst := by
        intro hh
        have hms2 : m2.src = u.move.src := by
          rw [hh, hm2d, hsu]
        have hmm : m2 = u.move :=
          nodup_map_mem_inj (fun m => m.src) plan.moves hsrc_nd
            m2 hm2 u.move hmu hms2
        apply hneu
        rw [← hmm]
        exact hh
      refine Or.inr ⟨swapRM ⟨m2, m2.src, m2.dst⟩,
        List.mem_map.mpr ⟨⟨m2, m2.src, m2.dst⟩,
          (mem_batchOf plan _).mpr ⟨m2, hm2, hm2ne, rfl⟩, rfl⟩, ?_⟩
      show m2.dst = u.src
      exact hm2d
    · left
      rw [hsu] at hin
      rw [hsu]
      exact hFsrc_gone u.move hmu hin
  have hddR : ∀ v ∈ (batchOf plan).map swapRM,
      ∀ w ∈ (batchOf plan).map swapRM,
      v.dst ∉ ancestorsIncl w.dst.dropLast := by
    intro v hv w hw
    obtain ⟨u, hu, rfl⟩ := hmemR2 v hv
    obtain ⟨u2, hu2, rfl⟩ := hmemR2 w hw
    obtain ⟨hmu, _, hsu, _⟩ := hmem u hu
    obtain ⟨hmu2, _, hsu2, _⟩ := hmem u2 hu2
    show u.src ∉ ancestorsIncl u2.src.dropLast
    intro hinn
    have hnone := hanc u2.move hmu2 u.src (by
      rw [← hsu2]
      exact hinn)
    exact hfileokF u hu hnone
  have hncR : ¬HasCycle ((batchOf plan).map swapRM) :=
    not_hasCycle_dual _ (batchOf plan)
      (depOf_swap_dual (batchOf plan) hsrcF hdstF) hnc
  obtain ⟨fs2, applied2, happly2, hchar2, hdir2⟩ :=
    apply_plan_ok F (rollback_plan plan) tempDir ((batchOf plan).map swapRM)
      hmsR hsrcR hdstR hfileokR hparR hdstokR hddR hncR
  refine ⟨F, applied1, fs2, applied2, happly1, happly2, ?_⟩
  intro p
  rw [hchar2 p]
  by_cases hpsrc : ∃ u ∈ batchOf plan, u.src = p
  · obtain ⟨u, hu, hus⟩ := hpsrc
    have hswu_mem : swapRM u ∈ (batchOf plan).map swapRM :=
      List.mem_map.mpr ⟨u, hu, rfl⟩
    have h0 := find_dst_first ((batchOf plan).map swapRM) hdstR
      (swapRM u) hswu_mem
    have hfind : ((batchOf plan).map swapRM).find?
        (fun t => decide (t.dst = p)) = some (swapRM u) := by
      rw [← hus]
      exact h0
    rw [finalFile_hit F _ p (swapRM u) hfind]
    obtain ⟨hmu, _, hsu, hdu⟩ := hmem u hu
    show fileAt F u.dst = fileAt fs0 p
    rw [hdu, hFdst u.move hmu, ← hsu, hus]
  · have hfind : ((batchOf plan).map swapRM).find?
        (fun t => decide (t.dst = p)) = none := by
      apply find_dst_none
      intro v hv hvd
      obtain ⟨u, hu, rfl⟩ := hmemR2 v hv
      exact hpsrc ⟨u, hu, hvd⟩
    by_cases hpdst : ∃ u ∈ batchOf plan, u.dst = p
    · obtain ⟨u, hu, hud⟩ := hpdst
      have hany : ((batchOf plan).map swapRM).any
          (fun t => decide (t.src = p)) = true :=
        any_src_of_mem _ _ (swapRM u) (List.mem_map.mpr ⟨u, hu, rfl⟩) hud
      rw [finalFile_src F _ p hfind hany]
      obtain ⟨hmu, _, _, hdu⟩ := hmem u hu
      rcases hdstok u.move hmu with hnone | ⟨m2, hm2, hm2s, hm2ne⟩
      · have hfp : fs0 p = none := by
          rw [← hud, hdu]
          exact hnone
        unfold fileAt
        rw [hfp]
      · exfalso
        apply hpsrc
        refine ⟨⟨m2, m2.src, m2.dst⟩,
          (mem_batchOf plan _).mpr ⟨m2, hm2, hm2ne, rfl⟩, ?_⟩
        show m2.src = p
        rw [hm2s, ← hdu, hud]
    · have hany : ((batchOf plan).map swapRM).any
          (fun t => decide (t.src = p)) = false := by
        apply any_src_none
        intro v hv hvs
        obtain ⟨u, hu, rfl⟩ := hmemR2 v hv
        exact hpdst ⟨u, hu, hvs⟩
      rw [finalFile_none F _ p hfind hany, hcharF p]
      have hfindF : (batchOf plan).find? (fun t => decide (t.dst = p)) = none := by
        apply find_dst_none
        intro t ht htd
        exact hpdst ⟨t, ht, htd⟩
      have hanyF : (batchOf plan).any (fun t => decide (t.src = p)) = false := by
        apply any_src_none
        intro t ht hts
        exact hpsrc ⟨t, ht, hts⟩
      exact finalFile_none fs0 (batchOf plan) p hfindF hanyF

/-- A filesystem with two regular files for the C7 counterexample. -/
def fsDD : FS := fun p =>
  if p = ["a"] then some (Entry.file 1)
  else if p = ["b"] then some (Entry.file 2)
  else none

/-- A plan with duplicated destinations: both files move onto `c`. -/
def planDD : RenamePlan :=
  ⟨1, "s", none, ["d"], ["o"],
    [⟨["a"], ["c"], MoveKind.video, 1⟩, ⟨["b"], ["c"], MoveKind.video, 2⟩]⟩

/-- Counterexample to C7 as stated: every source of `planDD` exists as a
regular file and the forward apply succeeds (the second move silently
overwrites the first at `c`), yet applying the returned rollback plan
returns the apply-failed error and leaves `b` absent: the content that was
at `b` is not restored, so the round trip does not return the original
path set and contents. -/
theorem c7_counterexample :
    (∀ m ∈ planDD.moves, fileAt fsDD m.src ≠ none) ∧
    (apply_rename_plan fsDD planDD false false [] none).2 =
      Except.ok ⟨false,
        [⟨["a"], ["c"], MoveKind.video, 1⟩, ⟨["b"], ["c"], MoveKind.video, 2⟩],
        build_rollback_moves planDD, none⟩ ∧
    (apply_rename_plan (apply_rename_plan fsDD planDD false false [] none).1
        (rollback_plan planDD) false false [] none).2 =
      Except.error "apply failed" ∧
    fileAt (apply_rename_plan (apply_rename_plan fsDD planDD false false [] none).1
        (rollback_plan planDD) false false [] none).1 ["b"] = none ∧
    fileAt fsDD ["b"] = some 2 := by
  decide

/-- A filesystem with two regular files for the C7 witness. -/
def fsW7 : FS := fun p =>
  if p = ["a"] then some (Entry.file 1)
  else if p = ["b"] then some (Entry.file 2)
  else none

/-- An in-place chain plan: `a` moves onto the occupied `b`, whose file
moves on to `c`. -/
def planW7 : RenamePlan :=
  ⟨1, "s", none, ["d"], ["o"],
    [⟨["a"], ["b"], MoveKind.video, 1⟩, ⟨["b"], ["c"], MoveKind.video, 2⟩]⟩

/-- Witness for the amended C7 at a concrete chain plan. -/
theorem c7_witness :
    ∃ F applied1 fs2 applied2,
      apply_rename_plan fsW7 planW7 false false [] none =
        (F, Except.ok ⟨false, applied1, build_rollback_moves planW7, none⟩) ∧
      apply_rename_plan F (rollback_plan planW7) false false [] none =
        (fs2, Except.ok ⟨false, applied2,
          build_rollback_moves (rollback_plan planW7), none⟩) ∧
      ∀ p, fileAt fs2 p = fileAt fsW7 p :=
  c7_round_trip fsW7 planW7 [] (by decide) (by decide) (by decide) (by decide)
    (by decide) (by decide) (by decide) (by decide)
    (not_hasCycle_of_bounded (batchOf planW7) (by decide))

end Aninamer
